import Mathlib

/-!
Shallow embedding of the plagiarism-highlight-service core, translated from the
JavaScript sources:

* `src/service/plagiarism-service/src/utils/text-highlighter.js` (the highlight
  compositor: `combineHighlights`, `resolveOverlaps`, `generateHTML`,
  `wrapInHighlights`, `generateLineReport`, `escapeHtml`, css/attribute helpers);
* `src/service/plagiarism-service/src/storage/scanStore.js` (the record store);
* the webhook controller (`handleStatus`, `handleNewResult`, `handleResultExport`,
  `handleCrawled`, `handlePdf`, `handleExportCompletion`);
* the read path (`getHighlights`) and `highlightService`
  (`extractMatches`, `resolveBaseText`, `generateHighlightPayload`).

Modelling conventions, used consistently below:

* JS strings are modelled as `List Char` where character positions matter
  (document text, rendered markup), and as `String` for opaque metadata.
  An absent/`undefined` string field is modelled as `""` (both are falsy in JS,
  and the code only ever tests them with `||` / truthiness).
* JS numbers holding offsets are `Int` before clamping (they may be negative)
  and `Nat` afterwards.  `Math.max(0, x)` on an `Int` is `Int.toNat`.
* A JS `Map` is an association list in insertion order; `Map.set` replaces the
  first matching key or appends, `Map.get` is `find?`.  `Map.values()` is
  `map Prod.snd` of the entry list.
* `new Date().toISOString()` timestamps are modelled by a `now : Nat` argument.
* `Array.prototype.sort` (stable since ES2019) is modelled by
  `List.insertionSort`, which is the stable sort.  The event comparator of
  `resolveOverlaps` orders by position then end-before-start; for events equal
  under that key the comparator is inconsistent and the concrete order is
  implementation-defined, but all such events are inserts/deletes of distinct
  map keys between which no segment is emitted, so only the start-event tie
  order is observable; the stable reading keeps those in input order, which is
  the order the events were pushed (ascending highlight index).  We therefore
  sort by (position, end-before-start, index).
-/

/-! ### Compositor data model (text-highlighter.js) -/

/-- The `type` field of a highlight object: `"grammar"` or `"plagiarism"`. -/
inductive HighlightFamily
  | grammar
  | plagiarism
deriving DecidableEq, Repr

/-- A highlight object as pushed by `combineHighlights` onto `allHighlights`
(after clamping).  The JS object's `end` field is always `start + length`;
we keep it derived (`Highlight.stop`).  Fields that only one family carries
(`severity`/`message`/`suggestion`/`replacements` for grammar,
`source`/`sourceUrl`/`matchPercentage` for plagiarism) default to `""`/`0`/`[]`
for the other family, which matches JS `undefined` under every truthiness test
the code performs. -/
structure Highlight where
  start : Nat
  length : Nat
  type : HighlightFamily
  subType : String
  severity : String
  message : String
  suggestion : String
  replacements : List String
  source : String
  sourceUrl : String
  matchPercentage : Nat
  affectedText : List Char
deriving DecidableEq, Repr

/-- `highlight.end` in the source: stored as `start + length` at construction. -/
def Highlight.stop (h : Highlight) : Nat := h.start + h.length

/-- A grammar-checker error as consumed by `combineHighlights`
(`error.position.start`, `error.position.length`, `error.type`, ...). -/
structure GrammarError where
  start : Int
  length : Int
  type : String
  severity : String
  message : String
  suggestion : String
  replacements : List String
  affectedText : List Char
deriving DecidableEq, Repr

/-- A plagiarism match as consumed by `combineHighlights`. -/
structure PlagiarismMatch where
  start : Int
  length : Int
  matchType : String
  source : String
  sourceUrl : String
  matchPercentage : Nat
deriving DecidableEq, Repr

/-- JS `text.substring(a, b)` for non-negative arguments: clamps both ends to
the text length and swaps them when out of order. -/
def jsSubstring (t : List Char) (a b : Nat) : List Char :=
  let a' := min a t.length
  let b' := min b t.length
  (t.drop (min a' b')).take (max a' b' - min a' b')

/-- Clamping and validation of one grammar error
(`combineHighlights`, grammar branch):
guard `error.position.length` truthy, `start := Math.max(0, start)`,
`length := Math.min(length, text.length - start)`, keep only if `length > 0`. -/
def clampGrammar (text : List Char) (e : GrammarError) : Option Highlight :=
  if e.length = 0 then none
  else
    let start : Nat := e.start.toNat
    let len : Int := min e.length ((text.length : Int) - (start : Int))
    if 0 < len then
      some
        { start := start
          length := len.toNat
          type := HighlightFamily.grammar
          subType := if e.type = "" then "unknown" else e.type
          severity := if e.severity = "" then "warning" else e.severity
          message := if e.message = "" then "Grammar issue detected" else e.message
          suggestion := e.suggestion
          replacements := e.replacements
          source := ""
          sourceUrl := ""
          matchPercentage := 0
          affectedText :=
            if e.affectedText = [] then jsSubstring text start (start + len.toNat)
            else e.affectedText }
    else none

/-- Clamping and validation of one plagiarism match
(`combineHighlights`, plagiarism branch). -/
def clampPlagiarism (text : List Char) (m : PlagiarismMatch) : Option Highlight :=
  if m.length = 0 then none
  else
    let start : Nat := m.start.toNat
    let len : Int := min m.length ((text.length : Int) - (start : Int))
    if 0 < len then
      some
        { start := start
          length := len.toNat
          type := HighlightFamily.plagiarism
          subType := if m.matchType = "" then "identical" else m.matchType
          severity := ""
          message := ""
          suggestion := ""
          replacements := []
          source := if m.source = "" then "Unknown source" else m.source
          sourceUrl := m.sourceUrl
          matchPercentage := m.matchPercentage
          affectedText := jsSubstring text start (start + len.toNat) }
    else none

/-- The clamped, validated, start-sorted highlight list built by
`combineHighlights` before overlap resolution.  Grammar highlights are pushed
first, then plagiarism highlights, then
`allHighlights.sort((a, b) => a.start - b.start)` (a stable sort by start). -/
def allHighlights (text : List Char) (grammarErrors : Option (List GrammarError))
    (plagiarismMatches : List PlagiarismMatch) : List Highlight :=
  let gs := (grammarErrors.getD []).filterMap (clampGrammar text)
  let ps := plagiarismMatches.filterMap (clampPlagiarism text)
  List.insertionSort (fun a b => a.start ≤ b.start) (gs ++ ps)

/-! ### Overlap resolution (`resolveOverlaps`) -/

/-- A sweep event: `{ position, type: "start" | "end", highlight, index }`. -/
structure Event where
  position : Nat
  isEnd : Bool
  highlight : Highlight
  index : Nat
deriving DecidableEq, Repr

/-- The start event pushed for highlight number `i`. -/
def startEvent (i : Nat) (h : Highlight) : Event :=
  ⟨h.start, false, h, i⟩

/-- The end event pushed for highlight number `i` (`position: highlight.end`). -/
def endEvent (i : Nat) (h : Highlight) : Event :=
  ⟨h.start + h.length, true, h, i⟩

/-- Event construction: for each highlight, in input order, push its start event
then its end event. -/
def mkEvents (hs : List Highlight) : List Event :=
  hs.enum.flatMap (fun p => [startEvent p.1 p.2, endEvent p.1 p.2])

/-- Sorting rank of the event kind: end events sort before start events at the
same position. -/
def eventRank (e : Event) : Nat := if e.isEnd then 0 else 1

/-- The event order: position ascending, end events before start events at the
same position, ties in input (index) order (the stable-sort reading of the JS
comparator, see file header). -/
def eventLE (a b : Event) : Prop :=
  a.position < b.position ∨
    (a.position = b.position ∧
      (eventRank a < eventRank b ∨ (eventRank a = eventRank b ∧ a.index ≤ b.index)))

instance : DecidableRel eventLE := fun a b => by
  unfold eventLE; infer_instance

instance : IsTotal Event eventLE where
  total a b := by
    unfold eventLE
    rcases Nat.lt_trichotomy a.position b.position with h | h | h
    · exact Or.inl (Or.inl h)
    · rcases Nat.lt_trichotomy (eventRank a) (eventRank b) with h2 | h2 | h2
      · exact Or.inl (Or.inr ⟨h, Or.inl h2⟩)
      · rcases Nat.le_total a.index b.index with h3 | h3
        · exact Or.inl (Or.inr ⟨h, Or.inr ⟨h2, h3⟩⟩)
        · exact Or.inr (Or.inr ⟨h.symm, Or.inr ⟨h2.symm, h3⟩⟩)
      · exact Or.inr (Or.inr ⟨h.symm, Or.inl h2⟩)
    · exact Or.inr (Or.inl h)

instance : IsTrans Event eventLE where
  trans a b c hab hbc := by
    unfold eventLE at *
    rcases hab with h1 | ⟨e1, h1⟩
    · rcases hbc with h2 | ⟨e2, _⟩
      · exact Or.inl (h1.trans h2)
      · exact Or.inl (e2 ▸ h1)
    · rcases hbc with h2 | ⟨e2, h2⟩
      · exact Or.inl (e1 ▸ h2)
      · refine Or.inr ⟨e1.trans e2, ?_⟩
        rcases h1 with h1 | ⟨r1, h1⟩
        · rcases h2 with h2 | ⟨r2, _⟩
          · exact Or.inl (h1.trans h2)
          · exact Or.inl (r2 ▸ h1)
        · rcases h2 with h2 | ⟨r2, h2⟩
          · exact Or.inl (r1 ▸ h2)
          · exact Or.inr ⟨r1.trans r2, h1.trans h2⟩

/-- `events.sort(...)` in `resolveOverlaps`. -/
def sortEvents (es : List Event) : List Event :=
  List.insertionSort eventLE es

/-- A resolved segment with the active map's full entry list
(key = highlight index, value = highlight), before `Array.from(map.values())`
drops the keys.  Kept indexed so that activation order and annotation identity
can be stated; `segOfSegI` erases the keys. -/
structure SegmentI where
  start : Nat
  stop : Nat
  entries : List (Nat × Highlight)
deriving DecidableEq, Repr

/-- A resolved segment as returned by `resolveOverlaps`:
`{ start, end, length, highlights }` (with `end` called `stop`). -/
structure Segment where
  start : Nat
  stop : Nat
  length : Nat
  highlights : List Highlight
deriving DecidableEq, Repr

/-- `Array.from(activeHighlights.values())` and the segment literal pushed by
the sweep. -/
def segOfSegI (s : SegmentI) : Segment :=
  ⟨s.start, s.stop, s.stop - s.start, s.entries.map Prod.snd⟩

/-- The sweep state of `resolveOverlaps`: `lastPos`, the insertion-ordered
`activeHighlights` map, and the `resolved` output so far. -/
structure SweepState where
  lastPos : Nat
  active : List (Nat × Highlight)
  resolved : List SegmentI
deriving Repr

/-- One iteration of the event loop in `resolveOverlaps`: emit a segment if the
position advanced and the active map is non-empty, then apply the event to the
active map, then advance `lastPos`. -/
def sweepStep (s : SweepState) (e : Event) : SweepState :=
  ⟨e.position,
    if e.isEnd then s.active.filter (fun p => p.1 ≠ e.index)
    else s.active ++ [(e.index, e.highlight)],
    if s.lastPos < e.position ∧ s.active ≠ [] then
      s.resolved ++ [⟨s.lastPos, e.position, s.active⟩]
    else s.resolved⟩

/-- `resolveOverlaps`, producing key-annotated segments. -/
def resolveOverlapsI (highlights : List Highlight) : List SegmentI :=
  if highlights = [] then []
  else ((sortEvents (mkEvents highlights)).foldl sweepStep ⟨0, [], []⟩).resolved

/-- `resolveOverlaps` as the source returns it (highlights only). -/
def resolveOverlaps (highlights : List Highlight) : List Segment :=
  (resolveOverlapsI highlights).map segOfSegI

/-! ### Rendering (`escapeHtml`, `getCssClass`, `getDataAttributes`,
`wrapInHighlights`, `generateHTML`) -/

/-- The apostrophe character (avoiding a quoted literal). -/
def aposChar : Char := Char.ofNat 39

/-- The per-character replacement of `escapeHtml`'s regex
`/[&<>"']/g` with the `htmlEscapes` table. -/
def escapeChar (c : Char) : List Char :=
  if c = '&' then "&amp;".toList
  else if c = '<' then "&lt;".toList
  else if c = '>' then "&gt;".toList
  else if c = '"' then "&quot;".toList
  else if c = aposChar then "&#39;".toList
  else [c]

/-- `escapeHtml` on a string. -/
def escapeHtml (text : List Char) : List Char :=
  text.flatMap escapeChar

/-- The `this.cssClasses` lookup table. -/
def cssClassesLookup (key : String) : Option String :=
  if key = "grammar" then some "grammar-error"
  else if key = "spelling" then some "spelling-error"
  else if key = "punctuation" then some "punctuation-error"
  else if key = "style" then some "style-issue"
  else if key = "plagiarism" then some "plagiarism-match"
  else if key = "plagiarismIdentical" then some "plagiarism-identical"
  else if key = "plagiarismMinor" then some "plagiarism-minor"
  else if key = "plagiarismParaphrased" then some "plagiarism-paraphrased"
  else none

/-- `getCssClass`.  The trailing `return "highlight"` of the source is
unreachable because `type` is always one of the two families. -/
def getCssClass (h : Highlight) : String :=
  match h.type with
  | HighlightFamily.grammar => (cssClassesLookup h.subType).getD "grammar-error"
  | HighlightFamily.plagiarism =>
    if h.subType = "identical" then "plagiarism-identical"
    else if h.subType = "minorChanges" then "plagiarism-minor"
    else if h.subType = "paraphrased" then "plagiarism-paraphrased"
    else "plagiarism-match"

/-- The printed name of `highlight.type`. -/
def familyName : HighlightFamily → List Char
  | HighlightFamily.grammar => "grammar".toList
  | HighlightFamily.plagiarism => "plagiarism".toList

/-- `getDataAttributes`: the attribute strings pushed for a highlight, joined
with a single space.  Note that `data-severity` interpolates the raw severity
string without escaping (unlike `data-message`/`data-suggestion`/`data-source`).
-/
def getDataAttributes (h : Highlight) : List Char :=
  let attrs : List (List Char) :=
    ["data-type=\"".toList ++ familyName h.type ++ "\"".toList] ++
      (match h.type with
       | HighlightFamily.grammar =>
         ["data-message=\"".toList ++ escapeHtml h.message.toList ++ "\"".toList] ++
           (if h.suggestion ≠ "" then
             ["data-suggestion=\"".toList ++ escapeHtml h.suggestion.toList ++ "\"".toList]
           else []) ++
           ["data-severity=\"".toList ++ h.severity.toList ++ "\"".toList]
       | HighlightFamily.plagiarism =>
         (if h.source ≠ "" then
           ["data-source=\"".toList ++ escapeHtml h.source.toList ++ "\"".toList]
         else []) ++
           (if h.sourceUrl ≠ "" then
             ["data-source-url=\"".toList ++ escapeHtml h.sourceUrl.toList ++ "\"".toList]
           else []) ++
           (if h.matchPercentage ≠ 0 then
             ["data-match=\"".toList ++ (Nat.repr h.matchPercentage).toList ++ "%\"".toList]
           else []))
  List.intercalate " ".toList attrs

/-- The opening wrapper written by `wrapInHighlights`:
`<span class="CLASS" ATTRS>`. -/
def spanOpen (h : Highlight) : List Char :=
  "<span class=\"".toList ++ (getCssClass h).toList ++ "\" ".toList ++
    getDataAttributes h ++ ">".toList

/-- The closing wrapper `</span>`. -/
def spanClose : List Char := "</span>".toList

/-- `wrapInHighlights(text, highlights)`: escape the text, then wrap once per
highlight iterating over the reversed list, so the most recently activated
highlight becomes the innermost wrapper.  (The source's `highlights.reverse()`
mutates the segment's array in place — that mutation is modelled where
`combineHighlights` assembles its result.) -/
def wrapInHighlights (text : List Char) (highlights : List Highlight) : List Char :=
  highlights.reverse.foldl
    (fun wrapped h => spanOpen h ++ wrapped ++ spanClose)
    (escapeHtml text)

/-- The body of the `generateHTML` loop, with `lastIndex` threaded explicitly:
gap text before the segment is escaped and appended, the segment substring is
wrapped, and the tail after the last segment is escaped. -/
def generateHTMLAux (text : List Char) : List Segment → Nat → List Char
  | [], lastIndex =>
    if lastIndex < text.length then escapeHtml (text.drop lastIndex) else []
  | seg :: rest, lastIndex =>
    (if lastIndex < seg.start then escapeHtml (jsSubstring text lastIndex seg.start) else []) ++
      wrapInHighlights (jsSubstring text seg.start seg.stop) seg.highlights ++
      generateHTMLAux text rest seg.stop

/-- `generateHTML(text, resolvedHighlights)`. -/
def generateHTML (text : List Char) (resolvedHighlights : List Segment) : List Char :=
  if resolvedHighlights = [] then escapeHtml text
  else generateHTMLAux text resolvedHighlights 0

/-! ### Line report (`generateLineReport`) -/

/-- One clipped segment reference in a line report entry
(`{ start, end, highlights }`, with `end` called `stop`). -/
structure LineHighlight where
  start : Nat
  stop : Nat
  highlights : List Highlight
deriving DecidableEq, Repr

/-- One line report entry. -/
structure ReportLine where
  lineNumber : Nat
  lineText : List Char
  hasIssues : Bool
  highlights : List LineHighlight
deriving DecidableEq, Repr

/-- The per-line loop of `generateLineReport`.  `Math.max(0, seg.start -
lineStart)` is truncated `Nat` subtraction. -/
def lineReportAux (segs : List Segment) :
    List (List Char) → Nat → Nat → List ReportLine
  | [], _, _ => []
  | line :: rest, lineIndex, currentPos =>
    let lineStart := currentPos
    let lineEnd := currentPos + line.length
    let lineHighlights :=
      (segs.filter (fun s => s.start < lineEnd ∧ lineStart < s.stop)).map
        (fun s => LineHighlight.mk (s.start - lineStart)
          (min line.length (s.stop - lineStart)) s.highlights)
    let restReport := lineReportAux segs rest (lineIndex + 1) (lineEnd + 1)
    if lineHighlights ≠ [] then
      ⟨lineIndex + 1, line, true, lineHighlights⟩ :: restReport
    else restReport

/-- `generateLineReport(text, resolvedHighlights)`: split on newlines, emit one
entry per line that intersects at least one segment. -/
def generateLineReport (text : List Char) (resolvedHighlights : List Segment) :
    List ReportLine :=
  lineReportAux resolvedHighlights (text.splitOn '\n') 0 0

/-! ### Statistics and the combined result -/

/-- The dedup key built by the statistics loop:
the template string `TYPE_START_LENGTH`, which is in bijection with the triple
(family, start, length) since types and decimal numbers contain no
underscore. -/
def highlightId (h : Highlight) : HighlightFamily × Nat × Nat :=
  (h.type, h.start, h.length)

/-- Modelled from the spec: the annotation identity the specification
prescribes for statistics dedup — "identity = category + start + length",
where the category is the editorial error type / match subtype
(`subType` in the code).  Used to compare the spec's count with the code's. -/
def categoryId (h : Highlight) : String × Nat × Nat :=
  (h.subType, h.start, h.length)

/-- The statistics object. -/
structure Statistics where
  totalHighlights : Nat
  grammarErrors : Nat
  plagiarismMatches : Nat
deriving DecidableEq, Repr

/-- The result of `combineHighlights`. -/
structure HighlightResult where
  originalText : List Char
  textLength : Nat
  highlights : List Segment
  highlightedHTML : List Char
  lineReport : List ReportLine
  statistics : Statistics
deriving DecidableEq, Repr

/-- The early-returned result for empty or missing text. -/
def emptyTextResult : HighlightResult :=
  { originalText := []
    textLength := 0
    highlights := []
    highlightedHTML := []
    lineReport := []
    statistics := ⟨0, 0, 0⟩ }

/-- `combineHighlights(text, grammarResult, plagiarismMatches)`.

`text = none` models a missing/non-string text; `grammarErrors = none` models a
null `grammarResult` (or one without an `errors` array).  The source's
`generateHTML` call mutates each segment's `highlights` array in place
(`highlights.reverse()` inside `wrapInHighlights`); the line report, the
statistics loop and the returned `highlights` therefore all see the reversed
arrays, modelled by `resolvedAfter`. -/
def combineHighlights (text : Option (List Char))
    (grammarErrors : Option (List GrammarError))
    (plagiarismMatches : List PlagiarismMatch) : HighlightResult :=
  match text with
  | none => emptyTextResult
  | some t =>
    if t = [] then emptyTextResult
    else
      let all := allHighlights t grammarErrors plagiarismMatches
      let resolved := resolveOverlaps all
      let html := generateHTML t resolved
      let resolvedAfter :=
        resolved.map (fun s => { s with highlights := s.highlights.reverse })
      let report := generateLineReport t resolvedAfter
      let uniqueGrammarIds :=
        (((resolvedAfter.flatMap Segment.highlights).filter
          (fun h => h.type = HighlightFamily.grammar)).map highlightId).toFinset
      let uniquePlagiarismIds :=
        (((resolvedAfter.flatMap Segment.highlights).filter
          (fun h => h.type = HighlightFamily.plagiarism)).map highlightId).toFinset
      { originalText := t
        textLength := t.length
        highlights := resolvedAfter
        highlightedHTML := html
        lineReport := report
        statistics :=
          ⟨resolvedAfter.length, uniqueGrammarIds.card, uniquePlagiarismIds.card⟩ }

/-! ### Tag stripping (for the markup-preservation property)

`stripTags` removes every maximal `<`...`>` run from a rendered string — the
generic way to "remove the wrapper tags" from the compositor's markup, given
that escaped text contains no angle brackets. -/

/-- Character scanner: the `Bool` is true while inside a tag. -/
def stripTagsAux : List Char → Bool → List Char
  | [], _ => []
  | c :: rest, true =>
    if c = '>' then stripTagsAux rest false else stripTagsAux rest true
  | c :: rest, false =>
    if c = '<' then stripTagsAux rest true else c :: stripTagsAux rest false

/-- Remove every `<`...`>` run. -/
def stripTags (t : List Char) : List Char :=
  stripTagsAux t false

/-! ### Record store (scanStore.js) -/

/-- The summary stored on a record: either the completion summary
`{ totalResults, score, totalWords }` or the error summary `{ message }`
(whose `message` may itself be absent). -/
inductive Summary
  | counts (totalResults : Nat) (score : Nat) (totalWords : Nat)
  | failure (message : Option String)
deriving DecidableEq, Repr

/-- `{ source: { chars: { starts, lengths } } }` of one comparison kind in an
exported result payload. -/
structure CharSpans where
  starts : List Int
  lengths : List Int
deriving DecidableEq, Repr

/-- One comparison kind (`identical` / `minorChanges` / `relatedMeaning`);
`chars = none` models a missing `source.chars`. -/
structure ComparisonSide where
  chars : Option CharSpans
deriving DecidableEq, Repr

/-- `result.text.comparison`. -/
structure Comparison where
  identical : Option ComparisonSide
  minorChanges : Option ComparisonSide
  relatedMeaning : Option ComparisonSide
deriving DecidableEq, Repr

/-- An exported comparison payload as stored by the exported-result webhook and
read by `extractMatches`.  `comparison = none` models a payload without
`text.comparison`. -/
structure ExportedResultPayload where
  comparison : Option Comparison
  url : String
  title : String
  matchPercentage : Nat
deriving DecidableEq, Repr

/-- `record.exported`. -/
structure ExportedData where
  results : List (String × ExportedResultPayload)
  crawled : Option String
  crawledText : Option (List Char)
  pdfReport : Option String
  completedAt : Option Nat
deriving DecidableEq, Repr

/-- A scan record.  Webhook bodies that the code stores opaquely
(`results` entries, `crawled`, `pdfReport`) are modelled as strings. -/
structure ScanRecord where
  scanId : String
  text : List Char
  textLength : Nat
  createdAt : Nat
  status : String
  options : String
  summary : Option Summary
  credits : Option Nat
  results : List String
  exported : ExportedData
  exportStarted : Bool
  lastUpdated : Nat
deriving DecidableEq, Repr

/-- The in-memory `scans` map: an association list in insertion order. -/
def Store := List (String × ScanRecord)

instance : DecidableEq Store := fun a b => List.hasDecEq a b

/-- `scans.get(scanId)`. -/
def getScan (store : Store) (scanId : String) : Option ScanRecord :=
  (store.find? (fun p => p.1 = scanId)).map Prod.snd

/-- `scans.set(scanId, record)`: replace the entry with that key, or append. -/
def mapSet : Store → String → ScanRecord → Store
  | [], scanId, r => [(scanId, r)]
  | p :: rest, scanId, r =>
    if p.1 = scanId then (scanId, r) :: rest else p :: mapSet rest scanId r

/-- The payload accepted by `updateStatus`:
`{ summary?, credits? }`, where `credits = none` models an absent field
(`payload.credits !== undefined` is its presence test). -/
structure UpdatePayload where
  summary : Option Summary
  credits : Option Nat
deriving DecidableEq, Repr

/-- `updateStatus(scanId, status, payload)`. -/
def updateStatus (store : Store) (scanId : String) (status : String)
    (payload : UpdatePayload) (now : Nat) : Store × Option ScanRecord :=
  match getScan store scanId with
  | none => (store, none)
  | some record =>
    let record := { record with status := status, lastUpdated := now }
    let record :=
      match payload.summary with
      | some s => { record with summary := some s }
      | none => record
    let record :=
      match payload.credits with
      | some c => { record with credits := some c }
      | none => record
    (mapSet store scanId record, some record)

/-- `addResult(scanId, result)`. -/
def addResult (store : Store) (scanId : String) (result : String) (now : Nat) :
    Store × Option ScanRecord :=
  match getScan store scanId with
  | none => (store, none)
  | some record =>
    let record := { record with results := record.results ++ [result], lastUpdated := now }
    (mapSet store scanId record, some record)

/-- `record.exported.results[resultId] = data` (object key semantics:
replace or append). -/
def objSet : List (String × ExportedResultPayload) → String → ExportedResultPayload →
    List (String × ExportedResultPayload)
  | [], k, v => [(k, v)]
  | p :: rest, k, v => if p.1 = k then (k, v) :: rest else p :: objSet rest k v

/-- `storeExportedResult(scanId, resultId, data)`. -/
def storeExportedResult (store : Store) (scanId resultId : String)
    (data : ExportedResultPayload) (now : Nat) : Store × Option ScanRecord :=
  match getScan store scanId with
  | none => (store, none)
  | some record =>
    let record :=
      { record with
        exported := { record.exported with results := objSet record.exported.results resultId data }
        lastUpdated := now }
    (mapSet store scanId record, some record)

/-- `storeCrawled(scanId, crawledPayload, extractedText)`. -/
def storeCrawled (store : Store) (scanId : String) (crawledPayload : String)
    (extractedText : Option (List Char)) (now : Nat) : Store × Option ScanRecord :=
  match getScan store scanId with
  | none => (store, none)
  | some record =>
    let record :=
      { record with
        exported :=
          { record.exported with
            crawled := some crawledPayload
            crawledText := extractedText }
        lastUpdated := now }
    (mapSet store scanId record, some record)

/-- `storePdf(scanId, pdfPayload)`. -/
def storePdf (store : Store) (scanId : String) (pdfPayload : String) (now : Nat) :
    Store × Option ScanRecord :=
  match getScan store scanId with
  | none => (store, none)
  | some record =>
    let record :=
      { record with
        exported := { record.exported with pdfReport := some pdfPayload }
        lastUpdated := now }
    (mapSet store scanId record, some record)

/-- `markExportStarted(scanId)`. -/
def markExportStarted (store : Store) (scanId : String) (now : Nat) :
    Store × Option ScanRecord :=
  match getScan store scanId with
  | none => (store, none)
  | some record =>
    let record := { record with exportStarted := true, lastUpdated := now }
    (mapSet store scanId record, some record)

/-- `markExportCompleted(scanId)`. -/
def markExportCompleted (store : Store) (scanId : String) (now : Nat) :
    Store × Option ScanRecord :=
  match getScan store scanId with
  | none => (store, none)
  | some record =>
    let record :=
      { record with
        exported := { record.exported with completedAt := some now }
        lastUpdated := now }
    (mapSet store scanId record, some record)

/-! ### Webhook controller -/

/-- The status callback payload
`{ results?: { internet?: [{id}], score?: { aggregatedScore } },
scannedDocument?: { totalWords }, error?, credits? }`, flattened over the
optional intermediate objects. -/
structure InternetResult where
  id : String
deriving DecidableEq, Repr

structure StatusPayload where
  internet : Option (List InternetResult)
  aggregatedScore : Option Nat
  totalWords : Option Nat
  error : Option String
  credits : Option Nat
deriving DecidableEq, Repr

/-- One call to `plagiarismScanner.exportResults(scanId, resultIds)`. -/
structure ExportCall where
  scanId : String
  resultIds : List String
deriving DecidableEq, Repr

/-- The reply a webhook handler sends: `{ignored: true}` with code 202 for an
unknown scan (a success-like acknowledgement), `{received: true}` with code 200
otherwise; the crawled handler adds an `extractedText` boolean. -/
inductive WebhookResp
  | ignored
  | received
  | receivedCrawled (extractedText : Bool)
deriving DecidableEq, Repr

/-- `handleStatus(request, reply)`: the controller's status webhook.  Returns
the updated store, the list of export calls issued, and the reply.  The
`await exportResults(...)` is inside a try/catch whose catch only logs, and
`markExportStarted` runs before the call, so the resulting store and call count
do not depend on whether the external call succeeds. -/
def handleStatus (store : Store) (now : Nat) (status scanId : String)
    (payload : StatusPayload) : Store × List ExportCall × WebhookResp :=
  match getScan store scanId with
  | none => (store, [], WebhookResp.ignored)
  | some record =>
    if status = "completed" then
      let store1 :=
        (updateStatus store scanId "completed"
          ⟨some (Summary.counts (payload.internet.getD []).length
            (payload.aggregatedScore.getD 0) (payload.totalWords.getD 0)), none⟩ now).1
      let resultIds := (payload.internet.getD []).map InternetResult.id
      if resultIds ≠ [] ∧ record.exportStarted = false then
        let store2 := (markExportStarted store1 scanId now).1
        (store2, [⟨scanId, resultIds⟩], WebhookResp.received)
      else (store1, [], WebhookResp.received)
    else if status = "error" then
      ((updateStatus store scanId "error"
        ⟨some (Summary.failure payload.error), none⟩ now).1, [], WebhookResp.received)
    else if status = "creditsChecked" then
      ((updateStatus store scanId record.status
        ⟨record.summary, payload.credits⟩ now).1, [], WebhookResp.received)
    else (store, [], WebhookResp.received)

/-- `handleNewResult`. -/
def handleNewResult (store : Store) (now : Nat) (scanId : String) (body : String) :
    Store × WebhookResp :=
  match getScan store scanId with
  | none => (store, WebhookResp.ignored)
  | some _ => ((addResult store scanId body now).1, WebhookResp.received)

/-- `handleResultExport`. -/
def handleResultExport (store : Store) (now : Nat) (scanId resultId : String)
    (body : ExportedResultPayload) : Store × WebhookResp :=
  match getScan store scanId with
  | none => (store, WebhookResp.ignored)
  | some _ => ((storeExportedResult store scanId resultId body now).1, WebhookResp.received)

/-- `extractText(payload)` restricted to the model's opaque string bodies:
`if (!payload) return null; if (typeof payload === "string") return payload;`.
-/
def extractText (payload : String) : Option (List Char) :=
  if payload = "" then none else some payload.toList

/-- `handleCrawled`. -/
def handleCrawled (store : Store) (now : Nat) (scanId : String) (body : String) :
    Store × WebhookResp :=
  match getScan store scanId with
  | none => (store, WebhookResp.ignored)
  | some _ =>
    let extractedText := extractText body
    ((storeCrawled store scanId body extractedText now).1,
      WebhookResp.receivedCrawled extractedText.isSome)

/-- `handlePdf`. -/
def handlePdf (store : Store) (now : Nat) (scanId : String) (body : String) :
    Store × WebhookResp :=
  match getScan store scanId with
  | none => (store, WebhookResp.ignored)
  | some _ => ((storePdf store scanId body now).1, WebhookResp.received)

/-- `handleExportCompletion`. -/
def handleExportCompletion (store : Store) (now : Nat) (scanId : String) :
    Store × WebhookResp :=
  match getScan store scanId with
  | none => (store, WebhookResp.ignored)
  | some _ => ((markExportCompleted store scanId now).1, WebhookResp.received)

/-! ### Read path (`getHighlights` and highlightService) -/

/-- `extractMatches(results)`: walk the exported payloads (object value order =
insertion order), and for each comparison kind with `source.chars` present,
emit one match per index of `chars.starts`.  An index missing from
`chars.lengths` yields a length of 0 (JS `undefined`, falsy), which the
downstream validation discards either way. -/
def extractMatches (results : List (String × ExportedResultPayload)) :
    List PlagiarismMatch :=
  results.flatMap fun p =>
    let result := p.2
    match result.comparison with
    | none => []
    | some comparison =>
      (([("identical", comparison.identical), ("minorChanges", comparison.minorChanges),
         ("relatedMeaning", comparison.relatedMeaning)]).flatMap fun tc =>
        match tc.2 with
        | none => []
        | some side =>
          match side.chars with
          | none => []
          | some chars =>
            (List.range chars.starts.length).map fun index =>
              { start := chars.starts.getD index 0
                length := chars.lengths.getD index 0
                matchType := tc.1
                source :=
                  if result.url ≠ "" then result.url
                  else if result.title ≠ "" then result.title
                  else "Detected source"
                sourceUrl := result.url
                matchPercentage := result.matchPercentage })

/-- `resolveBaseText(record)`: prefer the crawled text, else the submitted
text, else the empty string. -/
def resolveBaseText (record : ScanRecord) : List Char :=
  let c := record.exported.crawledText.getD []
  if c ≠ [] then c
  else if record.text ≠ [] then record.text
  else []

/-- The payload `generateHighlightPayload` sends on success. -/
structure HighlightPayload where
  scanId : String
  statistics : Statistics
  highlights : List Segment
  highlightedHTML : List Char
  lineReport : List ReportLine
  textLength : Nat
deriving DecidableEq, Repr

/-- `generateHighlightPayload(record)`: throws a plain `Error` (not a
`ConflictError`) when no base text is available, else composes highlights with
a null grammar result. -/
def generateHighlightPayload (record : ScanRecord) : Except String HighlightPayload :=
  let text := resolveBaseText record
  if text = [] then
    Except.error "No text available for highlighting. Wait for crawled payload."
  else
    let ms := extractMatches record.exported.results
    let result := combineHighlights (some text) none ms
    Except.ok
      { scanId := record.scanId
        statistics := result.statistics
        highlights := result.highlights
        highlightedHTML := result.highlightedHTML
        lineReport := result.lineReport
        textLength := result.textLength }

/-- The observable outcome of the `getHighlights` route handler: the sent
payload, or the error thrown (`NotFoundError`, `ConflictError`, or the plain
`Error` re-thrown out of `generateHighlightPayload`). -/
inductive GetHighlightsResult
  | payload (p : HighlightPayload)
  | notFound
  | conflict
  | errorThrown (message : String)
deriving DecidableEq, Repr

/-- `getHighlights`: 404 for an unknown scan, `ConflictError` when
`Object.keys(record.exported.results).length` is zero, else delegate to
`generateHighlightPayload`. -/
def getHighlights (store : Store) (scanId : String) : GetHighlightsResult :=
  match getScan store scanId with
  | none => GetHighlightsResult.notFound
  | some record =>
    if record.exported.results.length = 0 then GetHighlightsResult.conflict
    else
      match generateHighlightPayload record with
      | Except.error m => GetHighlightsResult.errorThrown m
      | Except.ok p => GetHighlightsResult.payload p

/-! ### Store lemmas -/

theorem getScan_mapSet_self (store : Store) (k : String) (r : ScanRecord) :
    getScan (mapSet store k r) k = some r := by
  induction store with
  | nil => simp [mapSet, getScan, List.find?]
  | cons p rest ih =>
    by_cases hp : p.1 = k
    · simp [mapSet, hp, getScan, List.find?]
    · simpa [mapSet, hp, getScan, List.find?] using ih

theorem getScan_updateStatus_self (store : Store) (k : String) (st : String)
    (p : UpdatePayload) (now : Nat) (r : ScanRecord)
    (h : getScan store k = some r) :
    ∃ r', (updateStatus store k st p now).1 = mapSet store k r' ∧
      getScan (updateStatus store k st p now).1 k = some r' ∧
      r'.exportStarted = r.exportStarted ∧ r'.status = st ∧
      r'.exported = r.exported ∧ r'.text = r.text := by
  unfold updateStatus
  rw [h]
  refine ⟨_, rfl, getScan_mapSet_self _ _ _, ?_⟩
  cases hs : p.summary <;> cases hc : p.credits <;> simp

theorem getScan_markExportStarted_self (store : Store) (k : String) (now : Nat)
    (r : ScanRecord) (h : getScan store k = some r) :
    (markExportStarted store k now).1 =
      mapSet store k { r with exportStarted := true, lastUpdated := now } ∧
    getScan (markExportStarted store k now).1 k =
      some { r with exportStarted := true, lastUpdated := now } := by
  unfold markExportStarted
  rw [h]
  exact ⟨rfl, getScan_mapSet_self _ _ _⟩

/-- C1: for a scan record with `exportStarted` still false whose completion
payload carries at least one internet result id, delivering the identical
`completed` status callback twice issues exactly one export call (on the first
delivery, with exactly the payload's result-id list), the second delivery
issues none, and the record's `exportStarted` flag is true after either
delivery. -/
theorem export_triggered_exactly_once (store : Store) (scanId : String)
    (record : ScanRecord) (payload : StatusPayload) (now1 now2 : Nat)
    (hrec : getScan store scanId = some record)
    (hfresh : record.exportStarted = false)
    (hids : (payload.internet.getD []).map InternetResult.id ≠ []) :
    (handleStatus store now1 "completed" scanId payload).2.1 =
      [⟨scanId, (payload.internet.getD []).map InternetResult.id⟩] ∧
    (handleStatus (handleStatus store now1 "completed" scanId payload).1
      now2 "completed" scanId payload).2.1 = [] ∧
    (handleStatus store now1 "completed" scanId payload).2.1.length +
      (handleStatus (handleStatus store now1 "completed" scanId payload).1
        now2 "completed" scanId payload).2.1.length = 1 ∧
    (∃ rec1, getScan (handleStatus store now1 "completed" scanId payload).1 scanId =
      some rec1 ∧ rec1.exportStarted = true) ∧
    (∃ rec2, getScan (handleStatus (handleStatus store now1 "completed" scanId
      payload).1 now2 "completed" scanId payload).1 scanId =
      some rec2 ∧ rec2.exportStarted = true) := by
  obtain ⟨r1, hstore1, hget1, hexp1, -, -, -⟩ :=
    getScan_updateStatus_self store scanId "completed"
      ⟨some (Summary.counts (payload.internet.getD []).length
        (payload.aggregatedScore.getD 0) (payload.totalWords.getD 0)), none⟩ now1 record hrec
  obtain ⟨hstore2, hget2⟩ :=
    getScan_markExportStarted_self (updateStatus store scanId "completed"
      ⟨some (Summary.counts (payload.internet.getD []).length
        (payload.aggregatedScore.getD 0) (payload.totalWords.getD 0)), none⟩ now1).1
      scanId now1 r1 hget1
  have hfirst : handleStatus store now1 "completed" scanId payload =
      ((markExportStarted (updateStatus store scanId "completed"
        ⟨some (Summary.counts (payload.internet.getD []).length
          (payload.aggregatedScore.getD 0) (payload.totalWords.getD 0)), none⟩ now1).1
        scanId now1).1,
        [⟨scanId, (payload.internet.getD []).map InternetResult.id⟩],
        WebhookResp.received) := by
    unfold handleStatus
    rw [hrec]
    simp [hids, hfresh]
  obtain ⟨r2, hstore3, hget3, hexp2, -, -, -⟩ :=
    getScan_updateStatus_self (handleStatus store now1 "completed" scanId payload).1
      scanId "completed"
      ⟨some (Summary.counts (payload.internet.getD []).length
        (payload.aggregatedScore.getD 0) (payload.totalWords.getD 0)), none⟩ now2
      { r1 with exportStarted := true, lastUpdated := now1 }
      (by rw [hfirst]; exact hget2)
  have hrec2started :
      ({ r1 with exportStarted := true, lastUpdated := now1 } : ScanRecord).exportStarted
        = true := rfl
  have hsecond : (handleStatus (handleStatus store now1 "completed" scanId payload).1
      now2 "completed" scanId payload) =
      ((updateStatus (handleStatus store now1 "completed" scanId payload).1 scanId
        "completed"
        ⟨some (Summary.counts (payload.internet.getD []).length
          (payload.aggregatedScore.getD 0) (payload.totalWords.getD 0)), none⟩ now2).1,
        [], WebhookResp.received) := by
    conv_lhs => rw [handleStatus]
    rw [show getScan (handleStatus store now1 "completed" scanId payload).1 scanId =
      some { r1 with exportStarted := true, lastUpdated := now1 } by
        rw [hfirst]; exact hget2]
    simp
  refine ⟨by rw [hfirst], by rw [hsecond], by rw [hsecond, hfirst]; rfl, ?_, ?_⟩
  · exact ⟨{ r1 with exportStarted := true, lastUpdated := now1 },
      by rw [hfirst]; exact hget2, rfl⟩
  · refine ⟨r2, by rw [hsecond]; exact hget3, ?_⟩
    rw [hexp2]

/-- Witness for C1 at a concrete store and payload. -/
def sampleRecord : ScanRecord :=
  { scanId := "scan1"
    text := "hello".toList
    textLength := 5
    createdAt := 0
    status := "pending"
    options := ""
    summary := none
    credits := none
    results := []
    exported := ⟨[], none, none, none, none⟩
    exportStarted := false
    lastUpdated := 0 }

def samplePayload : StatusPayload :=
  { internet := some [⟨"r1"⟩], aggregatedScore := some 10, totalWords := some 2,
    error := none, credits := none }

theorem export_triggered_exactly_once_witness :
    getScan [("scan1", sampleRecord)] "scan1" = some sampleRecord ∧
    sampleRecord.exportStarted = false ∧
    ((samplePayload.internet.getD []).map InternetResult.id ≠ []) ∧
    ((handleStatus [("scan1", sampleRecord)] 1 "completed" "scan1" samplePayload).2.1 =
      [⟨"scan1", (samplePayload.internet.getD []).map InternetResult.id⟩] ∧
    (handleStatus (handleStatus [("scan1", sampleRecord)] 1 "completed" "scan1"
      samplePayload).1 2 "completed" "scan1" samplePayload).2.1 = [] ∧
    (handleStatus [("scan1", sampleRecord)] 1 "completed" "scan1" samplePayload).2.1.length +
      (handleStatus (handleStatus [("scan1", sampleRecord)] 1 "completed" "scan1"
        samplePayload).1 2 "completed" "scan1" samplePayload).2.1.length = 1 ∧
    (∃ rec1, getScan (handleStatus [("scan1", sampleRecord)] 1 "completed" "scan1"
      samplePayload).1 "scan1" = some rec1 ∧ rec1.exportStarted = true) ∧
    (∃ rec2, getScan (handleStatus (handleStatus [("scan1", sampleRecord)] 1 "completed"
      "scan1" samplePayload).1 2 "completed" "scan1" samplePayload).1 "scan1" =
      some rec2 ∧ rec2.exportStarted = true)) :=
  ⟨by decide, by decide, by decide,
    export_triggered_exactly_once [("scan1", sampleRecord)] "scan1" sampleRecord
      samplePayload 1 2 (by decide) (by decide) (by decide)⟩

/-- C7: composing with empty or missing text returns the well-defined empty
result — zero segments, markup equal to the escaped empty text, an empty line
report and all-zero statistics — for every annotation collection. -/
theorem empty_text_empty_result (g : Option (List GrammarError))
    (m : List PlagiarismMatch) :
    combineHighlights none g m = emptyTextResult ∧
    combineHighlights (some []) g m = emptyTextResult ∧
    emptyTextResult.highlights = [] ∧
    emptyTextResult.highlightedHTML = escapeHtml [] ∧
    emptyTextResult.lineReport = [] ∧
    emptyTextResult.statistics = ⟨0, 0, 0⟩ :=
  ⟨rfl, rfl, rfl, rfl, rfl, rfl⟩

/-- C8: every webhook handler, when the scan id is unknown, acknowledges with
the success-like `{ignored: true}` reply (HTTP 202), issues no export call, and
leaves the record store completely unchanged. -/
theorem unknown_scan_callbacks_noop (store : Store) (scanId : String)
    (h : getScan store scanId = none) (now : Nat) (status : String)
    (sp : StatusPayload) (body : String) (resultId : String)
    (erp : ExportedResultPayload) :
    handleStatus store now status scanId sp = (store, [], WebhookResp.ignored) ∧
    handleNewResult store now scanId body = (store, WebhookResp.ignored) ∧
    handleResultExport store now scanId resultId erp = (store, WebhookResp.ignored) ∧
    handleCrawled store now scanId body = (store, WebhookResp.ignored) ∧
    handlePdf store now scanId body = (store, WebhookResp.ignored) ∧
    handleExportCompletion store now scanId = (store, WebhookResp.ignored) := by
  unfold handleStatus handleNewResult handleResultExport handleCrawled handlePdf
    handleExportCompletion
  rw [h]
  exact ⟨rfl, rfl, rfl, rfl, rfl, rfl⟩

theorem unknown_scan_callbacks_noop_witness :
    getScan [] "scan9" = none ∧
    (handleStatus [] 0 "completed" "scan9" ⟨none, none, none, none, none⟩ =
      ([], [], WebhookResp.ignored) ∧
    handleNewResult [] 0 "scan9" "b" = ([], WebhookResp.ignored) ∧
    handleResultExport [] 0 "scan9" "r" ⟨none, "", "", 0⟩ = ([], WebhookResp.ignored) ∧
    handleCrawled [] 0 "scan9" "b" = ([], WebhookResp.ignored) ∧
    handlePdf [] 0 "scan9" "b" = ([], WebhookResp.ignored) ∧
    handleExportCompletion [] 0 "scan9" = ([], WebhookResp.ignored)) :=
  ⟨rfl, unknown_scan_callbacks_noop [] "scan9" rfl 0 "completed"
    ⟨none, none, none, none, none⟩ "b" "r" ⟨none, "", "", 0⟩⟩

/-- C9: for an existing record, requesting highlight composition yields the
`ConflictError` outcome exactly when the record's exported comparison payload
map is empty; with at least one exported payload the outcome is never a
conflict (it is the composed payload, or the plain empty-text `Error`). -/
theorem conflict_iff_no_exported_results (store : Store) (scanId : String)
    (record : ScanRecord) (h : getScan store scanId = some record) :
    (getHighlights store scanId = GetHighlightsResult.conflict ↔
      record.exported.results = []) := by
  unfold getHighlights
  rw [h]
  cases hr : record.exported.results with
  | nil => simp [hr]
  | cons a l =>
    simp only [hr, List.length_cons]
    have : ¬ (l.length + 1 = 0) := by omega
    rw [if_neg this]
    cases hg : generateHighlightPayload record <;> simp

theorem conflict_iff_no_exported_results_witness :
    getScan [("scan1", sampleRecord)] "scan1" = some sampleRecord ∧
    (getHighlights [("scan1", sampleRecord)] "scan1" = GetHighlightsResult.conflict ↔
      sampleRecord.exported.results = []) :=
  ⟨by decide, conflict_iff_no_exported_results [("scan1", sampleRecord)] "scan1"
    sampleRecord (by decide)⟩

/-! ### Event-list lemmas -/

/-- The sorted event list processed by `resolveOverlaps`. -/
def eventsOf (hs : List Highlight) : List Event :=
  sortEvents (mkEvents hs)

/-- The identity of an event occurrence: each highlight index contributes one
start event and one end event. -/
def eventKey (e : Event) : Nat × Bool :=
  (e.index, e.isEnd)

theorem mem_mkEvents {hs : List Highlight} {e : Event} :
    e ∈ mkEvents hs ↔
      ∃ i h, hs[i]? = some h ∧ (e = startEvent i h ∨ e = endEvent i h) := by
  unfold mkEvents
  simp only [List.mem_flatMap]
  constructor
  · rintro ⟨p, hp, he⟩
    rw [List.mem_enum_iff_getElem?] at hp
    exact ⟨p.1, p.2, hp, by simpa using he⟩
  · rintro ⟨i, h, hi, he⟩
    exact ⟨(i, h), List.mem_enum_iff_getElem?.2 hi, by simpa using he⟩

theorem eventShape {hs : List Highlight} {e : Event} (he : e ∈ mkEvents hs) :
    hs[e.index]? = some e.highlight ∧
      (e.isEnd = false → e = startEvent e.index e.highlight) ∧
      (e.isEnd = true → e = endEvent e.index e.highlight) := by
  rcases mem_mkEvents.1 he with ⟨i, h, hi, rfl | rfl⟩ <;>
    simp [startEvent, endEvent, hi]

theorem startEvent_mem_mkEvents {hs : List Highlight} {i : Nat} {h : Highlight}
    (hi : hs[i]? = some h) : startEvent i h ∈ mkEvents hs :=
  mem_mkEvents.2 ⟨i, h, hi, Or.inl rfl⟩

theorem endEvent_mem_mkEvents {hs : List Highlight} {i : Nat} {h : Highlight}
    (hi : hs[i]? = some h) : endEvent i h ∈ mkEvents hs :=
  mem_mkEvents.2 ⟨i, h, hi, Or.inr rfl⟩

theorem start_mem_shape {hs : List Highlight} {i : Nat} {h : Highlight}
    (hmem : startEvent i h ∈ mkEvents hs) : hs[i]? = some h := by
  have := (eventShape hmem).1
  simpa [startEvent] using this

theorem index_ge_of_mem_enumFrom_events {t : List Highlight} {m : Nat} {e : Event}
    (he : e ∈ (t.enumFrom m).flatMap
      (fun p => [startEvent p.1 p.2, endEvent p.1 p.2])) :
    m ≤ e.index := by
  rcases List.mem_flatMap.1 he with ⟨p, hp, hee⟩
  have hle : m ≤ p.1 := by
    rcases p with ⟨i, x⟩
    exact (List.mk_mem_enumFrom_iff_le_and_getElem?_sub.1 hp).1
  simp only [List.mem_cons, List.mem_singleton, List.not_mem_nil, or_false] at hee
  rcases hee with h | h
  · subst h; simpa [startEvent] using hle
  · subst h; simpa [endEvent] using hle

theorem nodup_keys_enumFrom_events (t : List Highlight) (m : Nat) :
    (((t.enumFrom m).flatMap
      (fun p => [startEvent p.1 p.2, endEvent p.1 p.2])).map eventKey).Nodup := by
  induction t generalizing m with
  | nil => simp
  | cons h rest ih =>
    rw [List.enumFrom_cons]
    simp only [List.flatMap_cons, List.map_append, List.map_cons, List.map_nil]
    have hrest := ih (m + 1)
    have hge : ∀ k ∈ ((rest.enumFrom (m + 1)).flatMap
        (fun p => [startEvent p.1 p.2, endEvent p.1 p.2])).map eventKey, m + 1 ≤ k.1 := by
      intro k hk
      rcases List.mem_map.1 hk with ⟨x, hx, rfl⟩
      exact index_ge_of_mem_enumFrom_events hx
    simp only [List.cons_append, List.nil_append]
    rw [List.nodup_cons, List.nodup_cons]
    refine ⟨?_, ?_, hrest⟩
    · intro hmem
      rcases List.mem_cons.1 hmem with hone | hmem
      · simp [eventKey, startEvent, endEvent] at hone
      · have := hge _ hmem
        simp [eventKey, startEvent] at this
    · intro hmem
      have := hge _ hmem
      simp [eventKey, endEvent] at this

theorem nodup_keys_mkEvents (hs : List Highlight) :
    ((mkEvents hs).map eventKey).Nodup := by
  have := nodup_keys_enumFrom_events hs 0
  simpa [mkEvents, List.enum] using this

/-! ### The sweep invariant -/

/-- Activation order on active-map entries: earlier start position first, ties
by smaller highlight index (= earlier position in the input list). -/
def activationLT (a b : Nat × Highlight) : Prop :=
  a.2.start < b.2.start ∨ (a.2.start = b.2.start ∧ a.1 < b.1)

instance : DecidableRel activationLT := fun a b => by
  unfold activationLT; infer_instance

theorem eventLE_position_le {a b : Event} (h : eventLE a b) :
    a.position ≤ b.position := by
  rcases h with h | ⟨h, -⟩
  · exact h.le
  · exact h.le

/-- The invariant maintained by the sweep of `resolveOverlaps` after
processing the event prefix `P` of the sorted event list of `hs`. -/
structure SweepInv (hs : List Highlight) (P : List Event) (s : SweepState) : Prop where
  lastPos_mem : s.lastPos = 0 ∨ ∃ e ∈ P, Event.position e = s.lastPos
  lastPos_ub : ∀ e ∈ P, Event.position e ≤ s.lastPos
  active_start_mem : ∀ p ∈ s.active, startEvent p.1 p.2 ∈ P
  active_end_not_mem : ∀ p ∈ s.active, endEvent p.1 p.2 ∉ P
  active_complete : ∀ i h, startEvent i h ∈ P → endEvent i h ∉ P → (i, h) ∈ s.active
  active_sorted : s.active.Pairwise activationLT
  res_bounds : ∀ seg ∈ s.resolved, seg.start < seg.stop ∧ seg.stop ≤ s.lastPos
  res_chain : s.resolved.Pairwise (fun a b => a.stop ≤ b.start)
  res_nonempty : ∀ seg ∈ s.resolved, seg.entries ≠ []
  res_sorted : ∀ seg ∈ s.resolved, seg.entries.Pairwise activationLT
  res_sound : ∀ seg ∈ s.resolved, ∀ p ∈ seg.entries,
    hs[p.1]? = some p.2 ∧ p.2.start ≤ seg.start ∧ seg.stop ≤ p.2.start + p.2.length
  res_complete : ∀ i h q, startEvent i h ∈ P → h.start ≤ q → q < h.start + h.length →
    q < s.lastPos → ∃ seg ∈ s.resolved, seg.start ≤ q ∧ q < seg.stop ∧ (i, h) ∈ seg.entries

theorem sweepInv_init (hs : List Highlight) : SweepInv hs [] ⟨0, [], []⟩ := by
  refine ⟨Or.inl rfl, ?_, ?_, ?_, ?_, ?_, ?_, ?_, ?_, ?_, ?_, ?_⟩ <;> simp

theorem sweepInv_step {hs : List Highlight} {P S : List Event} {e : Event}
    {s : SweepState}
    (hpos : ∀ h ∈ hs, 0 < h.length)
    (hperm : List.Perm (P ++ e :: S) (mkEvents hs))
    (hsorted : (P ++ e :: S).Sorted eventLE)
    (hinv : SweepInv hs P s) :
    SweepInv hs (P ++ [e]) (sweepStep s e) := by
  have hmemE : ∀ x ∈ P ++ e :: S, x ∈ mkEvents hs := fun x hx => hperm.mem_iff.1 hx
  have heE : e ∈ mkEvents hs := hmemE e (by simp)
  have heShape := eventShape heE
  have hsplit := List.pairwise_append.1 hsorted
  have hPle : ∀ p ∈ P, eventLE p e := fun p hp => hsplit.2.2 p hp e (by simp)
  have hSle : ∀ t ∈ S, eventLE e t := fun t ht => (List.pairwise_cons.1 hsplit.2.1).1 t ht
  have hnodup : ((P ++ e :: S).map eventKey).Nodup :=
    ((hperm.map eventKey).nodup_iff).2 (nodup_keys_mkEvents hs)
  rw [List.map_append, List.map_cons, List.nodup_append] at hnodup
  have hkeyP : eventKey e ∉ P.map eventKey := fun hmem =>
    hnodup.2.2 hmem (List.mem_cons_self _ _)
  have hkeyS : eventKey e ∉ S.map eventKey := (List.nodup_cons.1 hnodup.2.1).1
  have hlast_le : s.lastPos ≤ e.position := by
    rcases hinv.lastPos_mem with h0 | ⟨p, hp, hpe⟩
    · omega
    · have := eventLE_position_le (hPle p hp)
      omega
  -- membership facts about events of entries of the active map
  have hactive_get : ∀ p ∈ s.active, hs[p.1]? = some p.2 := fun p hp =>
    start_mem_shape (hmemE _ (List.mem_append_left _ (hinv.active_start_mem p hp)))
  have hactive_stop : ∀ p ∈ s.active, e.position ≤ p.2.start + p.2.length := by
    intro p hp
    have hend : endEvent p.1 p.2 ∈ mkEvents hs := endEvent_mem_mkEvents (hactive_get p hp)
    have hend' : endEvent p.1 p.2 ∈ P ++ e :: S := hperm.symm.mem_iff.1 hend
    rcases List.mem_append.1 hend' with hmem | hmem
    · exact absurd hmem (hinv.active_end_not_mem p hp)
    · rcases List.mem_cons.1 hmem with hmem | hmem
      · rw [← hmem]; rfl
      · have := eventLE_position_le (hSle _ hmem)
        simpa [endEvent] using this
  have hactive_start_le : ∀ p ∈ s.active, p.2.start ≤ s.lastPos := by
    intro p hp
    have := hinv.lastPos_ub _ (hinv.active_start_mem p hp)
    simpa [startEvent] using this
  -- if e is a start event, the matching end event has not been processed
  have hstart_end_notin : e.isEnd = false → endEvent e.index e.highlight ∉ P ++ [e] := by
    intro hEnd hmem
    rcases List.mem_append.1 hmem with hmem | hmem
    · have hle := eventLE_position_le (hPle _ hmem)
      have h1 : e = startEvent e.index e.highlight := heShape.2.1 hEnd
      have h2 : 0 < e.highlight.length := by
        refine hpos _ ?_
        exact List.getElem?_mem heShape.1
      have h3 : e.position = e.highlight.start := by rw [h1]; rfl
      simp only [endEvent] at hle
      omega
    · simp only [List.mem_singleton] at hmem
      have : (endEvent e.index e.highlight).isEnd = e.isEnd := by rw [hmem]
      rw [hEnd] at this
      simp [endEvent] at this
  -- new entries appended on a start event are larger in activation order
  have hact_lt : e.isEnd = false → ∀ p ∈ s.active, activationLT p (e.index, e.highlight) := by
    intro hEnd p hp
    show p.2.start < e.highlight.start ∨ (p.2.start = e.highlight.start ∧ p.1 < e.index)
    have hne : p.1 ≠ e.index := by
      intro hEq
      apply hkeyP
      have : eventKey (startEvent p.1 p.2) = eventKey e := by
        simp [eventKey, startEvent, hEnd, hEq]
      rw [← this]
      exact List.mem_map_of_mem eventKey (hinv.active_start_mem p hp)
    have hle := hPle _ (hinv.active_start_mem p hp)
    have hpose : e.position = e.highlight.start := by
      rw [heShape.2.1 hEnd]; rfl
    rcases hle with hlt | ⟨hEq, hrank⟩
    · left
      simpa [startEvent, hpose] using hlt
    · right
      constructor
      · simp only [startEvent] at hEq
        omega
      · rcases hrank with hlt | ⟨-, hidx⟩
        · exfalso
          simp [eventRank, startEvent, hEnd] at hlt
        · simp only [startEvent] at hidx
          exact lt_of_le_of_ne hidx hne
  refine ⟨?_, ?_, ?_, ?_, ?_, ?_, ?_, ?_, ?_, ?_, ?_, ?_⟩
  -- lastPos_mem
  · exact Or.inr ⟨e, List.mem_append_right _ (List.mem_singleton_self e), rfl⟩
  -- lastPos_ub
  · intro x hx
    rcases List.mem_append.1 hx with hx | hx
    · have := hinv.lastPos_ub x hx
      show x.position ≤ e.position
      omega
    · rw [List.mem_singleton.1 hx]
      exact le_refl _
  -- active_start_mem
  · intro p hp
    show startEvent p.1 p.2 ∈ P ++ [e]
    by_cases hEnd : e.isEnd
    · simp only [sweepStep, hEnd, if_true] at hp
      exact List.mem_append_left _ (hinv.active_start_mem p (List.mem_of_mem_filter hp))
    · simp only [sweepStep, hEnd, if_false] at hp
      rcases List.mem_append.1 hp with hp | hp
      · exact List.mem_append_left _ (hinv.active_start_mem p hp)
      · rw [List.mem_singleton.1 hp]
        refine List.mem_append_right _ ?_
        rw [← heShape.2.1 (by simpa using hEnd)]
        exact List.mem_singleton_self e
  -- active_end_not_mem
  · intro p hp
    show endEvent p.1 p.2 ∉ P ++ [e]
    by_cases hEnd : e.isEnd
    · simp only [sweepStep, hEnd, if_true] at hp
      have hmem := List.mem_of_mem_filter hp
      have hne : p.1 ≠ e.index := by
        have := List.of_mem_filter hp
        simpa using this
      intro hcon
      rcases List.mem_append.1 hcon with hcon | hcon
      · exact hinv.active_end_not_mem p hmem hcon
      · apply hne
        have hEq := List.mem_singleton.1 hcon
        rw [← hEq]
        rfl
    · simp only [sweepStep, hEnd, if_false] at hp
      rcases List.mem_append.1 hp with hp | hp
      · intro hcon
        rcases List.mem_append.1 hcon with hcon | hcon
        · exact hinv.active_end_not_mem p hp hcon
        · have hkey : eventKey (endEvent p.1 p.2) = eventKey e := by
            rw [List.mem_singleton.1 hcon]
          simp only [eventKey, endEvent, Prod.mk.injEq] at hkey
          rw [← hkey.2] at hEnd
          simp at hEnd
      · rw [List.mem_singleton.1 hp]
        exact hstart_end_notin (by simpa using hEnd)
  -- active_complete
  · intro i h hstart hend
    by_cases hEnd : e.isEnd
    · show (i, h) ∈ if e.isEnd then _ else _
      rw [if_pos hEnd]
      have hstartP : startEvent i h ∈ P := by
        rcases List.mem_append.1 hstart with hx | hx
        · exact hx
        · exfalso
          have hkey : (startEvent i h).isEnd = e.isEnd := by
            rw [List.mem_singleton.1 hx]
          rw [hEnd] at hkey
          simp [startEvent] at hkey
      have hendP : endEvent i h ∉ P := fun hc => hend (List.mem_append_left _ hc)
      have hmem := hinv.active_complete i h hstartP hendP
      refine List.mem_filter.2 ⟨hmem, ?_⟩
      simp only [decide_eq_true_eq]
      intro hEq
      -- e would be the (unique) end event of index i, but that end event is
      -- not among the processed events nor equal to e by hypothesis
      have hgeti : hs[i]? = some h :=
        start_mem_shape (hmemE _ (List.mem_append_left _ hstartP))
      have hendE : endEvent i h ∈ P ++ e :: S :=
        hperm.symm.mem_iff.1 (endEvent_mem_mkEvents hgeti)
      rcases List.mem_append.1 hendE with hc | hc
      · exact hendP hc
      · rcases List.mem_cons.1 hc with hc | hc
        · exact hend (List.mem_append_right _ (by rw [hc]; exact List.mem_singleton_self e))
        · apply hkeyS
          have : eventKey (endEvent i h) = eventKey e := by
            simp [eventKey, endEvent, hEq, hEnd]
          rw [← this]
          exact List.mem_map_of_mem eventKey hc
    · show (i, h) ∈ if e.isEnd then _ else _
      rw [if_neg hEnd]
      rcases List.mem_append.1 hstart with hx | hx
      · have hendP : endEvent i h ∉ P := fun hc => hend (List.mem_append_left _ hc)
        exact List.mem_append_left _ (hinv.active_complete i h hx hendP)
      · have hEq : startEvent i h = e := List.mem_singleton.1 hx
        have h1 : i = e.index := by rw [← hEq]; rfl
        have h2 : h = e.highlight := by rw [← hEq]; rfl
        refine List.mem_append_right _ ?_
        rw [h1, h2]
        exact List.mem_singleton_self _
  -- active_sorted
  · by_cases hEnd : e.isEnd
    · show List.Pairwise _ (if e.isEnd then _ else _)
      rw [if_pos hEnd]
      exact hinv.active_sorted.sublist (List.filter_sublist _)
    · show List.Pairwise _ (if e.isEnd then _ else _)
      rw [if_neg hEnd]
      rw [List.pairwise_append]
      refine ⟨hinv.active_sorted, List.pairwise_singleton _ _, ?_⟩
      intro a ha b hb
      rw [List.mem_singleton.1 hb]
      exact hact_lt (by simpa using hEnd) a ha
  -- res_bounds
  · intro seg hseg
    show seg.start < seg.stop ∧ seg.stop ≤ e.position
    by_cases hcond : s.lastPos < e.position ∧ s.active ≠ []
    · simp only [sweepStep, if_pos hcond] at hseg
      rcases List.mem_append.1 hseg with hx | hx
      · have := hinv.res_bounds seg hx
        omega
      · rw [List.mem_singleton.1 hx]
        exact ⟨hcond.1, le_refl _⟩
    · simp only [sweepStep, if_neg hcond] at hseg
      have := hinv.res_bounds seg hseg
      omega
  -- res_chain
  · show List.Pairwise _ (if s.lastPos < e.position ∧ s.active ≠ [] then _ else _)
    by_cases hcond : s.lastPos < e.position ∧ s.active ≠ []
    · rw [if_pos hcond, List.pairwise_append]
      refine ⟨hinv.res_chain, List.pairwise_singleton _ _, ?_⟩
      intro a ha b hb
      rw [List.mem_singleton.1 hb]
      exact (hinv.res_bounds a ha).2
    · rw [if_neg hcond]
      exact hinv.res_chain
  -- res_nonempty
  · intro seg hseg
    by_cases hcond : s.lastPos < e.position ∧ s.active ≠ []
    · simp only [sweepStep, if_pos hcond] at hseg
      rcases List.mem_append.1 hseg with hx | hx
      · exact hinv.res_nonempty seg hx
      · rw [List.mem_singleton.1 hx]
        exact hcond.2
    · simp only [sweepStep, if_neg hcond] at hseg
      exact hinv.res_nonempty seg hseg
  -- res_sorted
  · intro seg hseg
    by_cases hcond : s.lastPos < e.position ∧ s.active ≠ []
    · simp only [sweepStep, if_pos hcond] at hseg
      rcases List.mem_append.1 hseg with hx | hx
      · exact hinv.res_sorted seg hx
      · rw [List.mem_singleton.1 hx]
        exact hinv.active_sorted
    · simp only [sweepStep, if_neg hcond] at hseg
      exact hinv.res_sorted seg hseg
  -- res_sound
  · intro seg hseg p hp
    by_cases hcond : s.lastPos < e.position ∧ s.active ≠ []
    · simp only [sweepStep, if_pos hcond] at hseg
      rcases List.mem_append.1 hseg with hx | hx
      · exact hinv.res_sound seg hx p hp
      · rw [List.mem_singleton.1 hx] at hp ⊢
        exact ⟨hactive_get p hp, hactive_start_le p hp, hactive_stop p hp⟩
    · simp only [sweepStep, if_neg hcond] at hseg
      exact hinv.res_sound seg hseg p hp
  -- res_complete
  · intro i h q hstart hq1 hq2 hq3
    show ∃ seg ∈ (if s.lastPos < e.position ∧ s.active ≠ [] then _ else _),
      seg.start ≤ q ∧ q < seg.stop ∧ (i, h) ∈ seg.entries
    have hq3' : q < e.position := hq3
    rcases List.mem_append.1 hstart with hstartP | hstartE
    · by_cases hqlast : q < s.lastPos
      · obtain ⟨seg, hseg, hrest⟩ := hinv.res_complete i h q hstartP hq1 hq2 hqlast
        refine ⟨seg, ?_, hrest⟩
        by_cases hcond : s.lastPos < e.position ∧ s.active ≠ []
        · rw [if_pos hcond]; exact List.mem_append_left _ hseg
        · rw [if_neg hcond]; exact hseg
      · have hlastq : s.lastPos ≤ q := Nat.le_of_not_lt hqlast
        have hendP : endEvent i h ∉ P := by
          intro hc
          have := hinv.lastPos_ub _ hc
          simp only [endEvent] at this
          omega
        have hmem := hinv.active_complete i h hstartP hendP
        have hne : s.active ≠ [] := List.ne_nil_of_mem hmem
        have hcond : s.lastPos < e.position ∧ s.active ≠ [] := ⟨by omega, hne⟩
        refine ⟨⟨s.lastPos, e.position, s.active⟩, ?_, hlastq, hq3', hmem⟩
        rw [if_pos hcond]
        exact List.mem_append_right _ (List.mem_singleton_self _)
    · exfalso
      have hEq : startEvent i h = e := List.mem_singleton.1 hstartE
      have : e.position = h.start := by rw [← hEq]; rfl
      omega

theorem sweepInv_foldl {hs : List Highlight}
    (hpos : ∀ h ∈ hs, 0 < h.length) :
    ∀ (S P : List Event) (s : SweepState),
      List.Perm (P ++ S) (mkEvents hs) → (P ++ S).Sorted eventLE →
      SweepInv hs P s → SweepInv hs (P ++ S) (S.foldl sweepStep s) := by
  intro S
  induction S with
  | nil =>
    intro P s hperm hsorted hinv
    simpa using hinv
  | cons e S ih =>
    intro P s hperm hsorted hinv
    have hstep := sweepInv_step hpos hperm hsorted hinv
    have hassoc : (P ++ [e]) ++ S = P ++ e :: S := by simp
    have := ih (P ++ [e]) (sweepStep s e)
      (by rw [hassoc]; exact hperm) (by rw [hassoc]; exact hsorted) hstep
    rw [hassoc] at this
    simpa using this

theorem sorted_eventsOf (hs : List Highlight) :
    (eventsOf hs).Sorted eventLE :=
  List.sorted_insertionSort eventLE (mkEvents hs)

theorem perm_eventsOf (hs : List Highlight) :
    List.Perm (eventsOf hs) (mkEvents hs) :=
  List.perm_insertionSort eventLE (mkEvents hs)

/-- The master invariant, instantiated at the whole sorted event list, together
with the identification of the sweep result with `resolveOverlapsI`. -/
theorem resolveOverlapsI_inv (hs : List Highlight)
    (hpos : ∀ h ∈ hs, 0 < h.length) :
    ∃ s : SweepState, s.resolved = resolveOverlapsI hs ∧ SweepInv hs (eventsOf hs) s := by
  by_cases hnil : hs = []
  · subst hnil
    refine ⟨⟨0, [], []⟩, by simp [resolveOverlapsI], ?_⟩
    have : eventsOf [] = [] := rfl
    rw [this]
    exact sweepInv_init []
  · refine ⟨(eventsOf hs).foldl sweepStep ⟨0, [], []⟩, ?_, ?_⟩
    · simp [resolveOverlapsI, hnil, eventsOf]
    · have := sweepInv_foldl hpos (eventsOf hs) [] ⟨0, [], []⟩
        (by simpa using perm_eventsOf hs) (by simpa using sorted_eventsOf hs)
        (sweepInv_init hs)
      simpa using this

/-- Every event of a highlight list's event set has position at most the final
`lastPos`; in particular every highlight's end offset does. -/
theorem final_lastPos_ub {hs : List Highlight} {s : SweepState}
    (hinv : SweepInv hs (eventsOf hs) s) {i : Nat} {h : Highlight}
    (hi : hs[i]? = some h) : h.start + h.length ≤ s.lastPos := by
  have hmem : endEvent i h ∈ eventsOf hs :=
    (perm_eventsOf hs).symm.mem_iff.1 (endEvent_mem_mkEvents hi)
  have := hinv.lastPos_ub _ hmem
  simpa [endEvent] using this

/-- Soundness and completeness of coverage at the level of `resolveOverlapsI`. -/
theorem resolveOverlapsI_coverage (hs : List Highlight)
    (hpos : ∀ h ∈ hs, 0 < h.length) (q : Nat) :
    (∃ seg ∈ resolveOverlapsI hs, seg.start ≤ q ∧ q < seg.stop) ↔
      (∃ h ∈ hs, h.start ≤ q ∧ q < h.start + h.length) := by
  obtain ⟨s, hres, hinv⟩ := resolveOverlapsI_inv hs hpos
  constructor
  · rintro ⟨seg, hseg, hq1, hq2⟩
    rw [← hres] at hseg
    obtain ⟨p, hp⟩ := List.exists_mem_of_ne_nil _ (hinv.res_nonempty seg hseg)
    obtain ⟨hget, hstart, hstop⟩ := hinv.res_sound seg hseg p hp
    exact ⟨p.2, List.getElem?_mem hget, by omega, by omega⟩
  · rintro ⟨h, hmem, hq1, hq2⟩
    obtain ⟨i, hi⟩ := List.getElem?_of_mem hmem
    have hstart : startEvent i h ∈ eventsOf hs :=
      (perm_eventsOf hs).symm.mem_iff.1 (startEvent_mem_mkEvents hi)
    have hlast : q < s.lastPos := by
      have := final_lastPos_ub hinv hi
      omega
    obtain ⟨seg, hseg, hs1, hs2, -⟩ :=
      hinv.res_complete i h q hstart hq1 hq2 hlast
    exact ⟨seg, hres ▸ hseg, hs1, hs2⟩

/-- Every highlight of the input (with its input position) appears in the entry
list of at least one resolved segment. -/
theorem resolveOverlapsI_refers (hs : List Highlight)
    (hpos : ∀ h ∈ hs, 0 < h.length) {i : Nat} {h : Highlight}
    (hi : hs[i]? = some h) :
    ∃ seg ∈ resolveOverlapsI hs, (i, h) ∈ seg.entries := by
  obtain ⟨s, hres, hinv⟩ := resolveOverlapsI_inv hs hpos
  have hstart : startEvent i h ∈ eventsOf hs :=
    (perm_eventsOf hs).symm.mem_iff.1 (startEvent_mem_mkEvents hi)
  have hlen : 0 < h.length := hpos h (List.getElem?_mem hi)
  have hlast : h.start < s.lastPos := by
    have := final_lastPos_ub hinv hi
    omega
  obtain ⟨seg, hseg, -, -, hentry⟩ :=
    hinv.res_complete i h h.start hstart (le_refl _) (by omega) hlast
  exact ⟨seg, hres ▸ hseg, hentry⟩

/-! ### Clamp bounds and pipeline identification -/

theorem allHighlights_bounds (text : List Char) (g : Option (List GrammarError))
    (m : List PlagiarismMatch) :
    ∀ h ∈ allHighlights text g m, 0 < h.length ∧ h.start + h.length ≤ text.length := by
  intro h hmem
  unfold allHighlights at hmem
  rw [List.mem_insertionSort] at hmem
  rcases List.mem_append.1 hmem with hmem | hmem
  · rcases List.mem_filterMap.1 hmem with ⟨e, -, he⟩
    unfold clampGrammar at he
    by_cases h0 : e.length = 0
    · rw [if_pos h0] at he; cases he
    · rw [if_neg h0] at he
      set len : Int := min e.length ((text.length : Int) - (e.start.toNat : Int)) with hlen
      have hle : len ≤ (text.length : Int) - (e.start.toNat : Int) := min_le_right _ _
      by_cases h1 : (0 : Int) < len
      · rw [if_pos h1] at he
        rcases Option.some.injEq _ _ ▸ he with rfl
        simp only []
        omega
      · rw [if_neg h1] at he; cases he
  · rcases List.mem_filterMap.1 hmem with ⟨e, -, he⟩
    unfold clampPlagiarism at he
    by_cases h0 : e.length = 0
    · rw [if_pos h0] at he; cases he
    · rw [if_neg h0] at he
      set len : Int := min e.length ((text.length : Int) - (e.start.toNat : Int)) with hlen
      have hle : len ≤ (text.length : Int) - (e.start.toNat : Int) := min_le_right _ _
      by_cases h1 : (0 : Int) < len
      · rw [if_pos h1] at he
        rcases Option.some.injEq _ _ ▸ he with rfl
        simp only []
        omega
      · rw [if_neg h1] at he; cases he

theorem allHighlights_pos (text : List Char) (g : Option (List GrammarError))
    (m : List PlagiarismMatch) :
    ∀ h ∈ allHighlights text g m, 0 < h.length :=
  fun h hm => (allHighlights_bounds text g m h hm).1

theorem allHighlights_nil (g : Option (List GrammarError)) (m : List PlagiarismMatch) :
    allHighlights [] g m = [] := by
  rw [List.eq_nil_iff_forall_not_mem]
  intro h hmem
  have := allHighlights_bounds [] g m h hmem
  simp at this
  omega

/-- The segment list the compositor returns for non-empty text: the resolved
segments of `resolveOverlapsI`, with each segment's highlight list reversed by
the in-place `reverse` of `wrapInHighlights` during HTML generation. -/
theorem combineHighlights_highlights (text : List Char)
    (g : Option (List GrammarError)) (m : List PlagiarismMatch) (hne : text ≠ []) :
    (combineHighlights (some text) g m).highlights =
      (resolveOverlapsI (allHighlights text g m)).map
        (fun s => ⟨s.start, s.stop, s.stop - s.start, (s.entries.map Prod.snd).reverse⟩) := by
  show (if text = [] then emptyTextResult else _).highlights = _
  rw [if_neg hne]
  simp only [resolveOverlaps, List.map_map]
  rfl

/-- The line report the compositor returns for non-empty text. -/
theorem combineHighlights_lineReport (text : List Char)
    (g : Option (List GrammarError)) (m : List PlagiarismMatch) (hne : text ≠ []) :
    (combineHighlights (some text) g m).lineReport =
      generateLineReport text ((combineHighlights (some text) g m).highlights) := by
  show (if text = [] then emptyTextResult else _).lineReport = _
  rw [combineHighlights_highlights text g m hne]
  rw [if_neg hne]
  simp only [resolveOverlaps, List.map_map]
  rfl

/-- The markup the compositor returns for non-empty text is generated from the
pre-reversal segments. -/
theorem combineHighlights_html (text : List Char)
    (g : Option (List GrammarError)) (m : List PlagiarismMatch) (hne : text ≠ []) :
    (combineHighlights (some text) g m).highlightedHTML =
      generateHTML text (resolveOverlaps (allHighlights text g m)) := by
  show (if text = [] then emptyTextResult else _).highlightedHTML = _
  rw [if_neg hne]

/-- The statistics the compositor returns for non-empty text. -/
theorem combineHighlights_statistics (text : List Char)
    (g : Option (List GrammarError)) (m : List PlagiarismMatch) (hne : text ≠ []) :
    (combineHighlights (some text) g m).statistics =
      ⟨(combineHighlights (some text) g m).highlights.length,
        ((((combineHighlights (some text) g m).highlights.flatMap
          Segment.highlights).filter
          (fun h => h.type = HighlightFamily.grammar)).map highlightId).toFinset.card,
        ((((combineHighlights (some text) g m).highlights.flatMap
          Segment.highlights).filter
          (fun h => h.type = HighlightFamily.plagiarism)).map highlightId).toFinset.card⟩ := by
  rw [combineHighlights_highlights text g m hne]
  show (if text = [] then emptyTextResult else _).statistics = _
  rw [if_neg hne]
  simp only [resolveOverlaps, List.map_map]
  rfl

/-- C3: the segment list the compositor returns is sorted by start position in
ascending order and the segments' half-open ranges are pairwise disjoint: for
any two segments in list order, the earlier one starts no later and ends at or
before the start of the later one, and every segment is non-degenerate
(`start < stop`), so the ranges `[start, stop)` cannot intersect. -/
theorem segments_sorted_disjoint (text : List Char)
    (g : Option (List GrammarError)) (m : List PlagiarismMatch) :
    ((combineHighlights (some text) g m).highlights).Pairwise
      (fun a b => a.start ≤ b.start ∧ a.stop ≤ b.start) ∧
    ∀ seg ∈ (combineHighlights (some text) g m).highlights, seg.start < seg.stop := by
  by_cases hne : text = []
  · subst hne
    constructor
    · show List.Pairwise _ ([] : List Segment)
      exact List.Pairwise.nil
    · intro seg hseg
      cases hseg
  · obtain ⟨s, hres, hinv⟩ :=
      resolveOverlapsI_inv (allHighlights text g m) (allHighlights_pos text g m)
    rw [combineHighlights_highlights text g m hne]
    constructor
    · rw [List.pairwise_map]
      rw [← hres]
      refine hinv.res_chain.imp_of_mem ?_
      intro a b ha hb hab
      have hba := hinv.res_bounds a ha
      exact ⟨show a.start ≤ b.start by omega, hab⟩
    · intro seg hseg
      rcases List.mem_map.1 hseg with ⟨segI, hsegI, rfl⟩
      rw [← hres] at hsegI
      exact (hinv.res_bounds segI hsegI).1

/-- C4: a character position lies inside some returned segment's range exactly
when at least one clamped, positive-length annotation (an element of
`allHighlights`) covers it. -/
theorem coverage_exact (text : List Char) (g : Option (List GrammarError))
    (m : List PlagiarismMatch) (q : Nat) :
    (∃ seg ∈ (combineHighlights (some text) g m).highlights,
      seg.start ≤ q ∧ q < seg.stop) ↔
    (∃ h ∈ allHighlights text g m, h.start ≤ q ∧ q < h.start + h.length) := by
  by_cases hne : text = []
  · subst hne
    rw [allHighlights_nil]
    constructor
    · rintro ⟨seg, hseg, -⟩
      cases hseg
    · rintro ⟨h, hh, -⟩
      cases hh
  · rw [combineHighlights_highlights text g m hne]
    rw [← resolveOverlapsI_coverage (allHighlights text g m) (allHighlights_pos text g m) q]
    constructor
    · rintro ⟨seg, hseg, hq1, hq2⟩
      rcases List.mem_map.1 hseg with ⟨segI, hsegI, rfl⟩
      exact ⟨segI, hsegI, hq1, hq2⟩
    · rintro ⟨segI, hsegI, hq1, hq2⟩
      exact ⟨_, List.mem_map_of_mem _ hsegI, hq1, hq2⟩

/-- C5: two annotations that touch end-to-end (`A.end = B.start`) are never
listed together in one resolved segment — end events are processed before
start events at the shared position — and each of them does appear in at least
one segment, every `A`-segment ending at or before every `B`-segment's start. -/
theorem touching_not_fused (hs : List Highlight)
    (hpos : ∀ h ∈ hs, 0 < h.length) (i j : Nat) (A B : Highlight)
    (hA : hs[i]? = some A) (hB : hs[j]? = some B)
    (ht : A.start + A.length = B.start) :
    (∀ seg ∈ resolveOverlapsI hs,
      ¬((i, A) ∈ seg.entries ∧ (j, B) ∈ seg.entries)) ∧
    (∃ segA ∈ resolveOverlapsI hs, (i, A) ∈ segA.entries) ∧
    (∃ segB ∈ resolveOverlapsI hs, (j, B) ∈ segB.entries) ∧
    (∀ segA ∈ resolveOverlapsI hs, ∀ segB ∈ resolveOverlapsI hs,
      (i, A) ∈ segA.entries → (j, B) ∈ segB.entries → segA.stop ≤ segB.start) := by
  obtain ⟨s, hres, hinv⟩ := resolveOverlapsI_inv hs hpos
  have hdisj : ∀ segA ∈ resolveOverlapsI hs, ∀ segB ∈ resolveOverlapsI hs,
      (i, A) ∈ segA.entries → (j, B) ∈ segB.entries → segA.stop ≤ segB.start := by
    intro segA hsegA segB hsegB hiA hjB
    rw [← hres] at hsegA hsegB
    have h1 := hinv.res_sound segA hsegA _ hiA
    have h2 := hinv.res_sound segB hsegB _ hjB
    simp only [] at h1 h2
    omega
  refine ⟨?_, resolveOverlapsI_refers hs hpos hA, resolveOverlapsI_refers hs hpos hB, hdisj⟩
  intro seg hseg ⟨hiA, hjB⟩
  have h1 := hdisj seg hseg seg hseg hiA hjB
  rw [← hres] at hseg
  have h2 := (hinv.res_bounds seg hseg).1
  have h3 := hinv.res_sound seg hseg _ hjB
  simp only [] at h3
  omega

/-- Concrete touching annotations for the C5 witness. -/
def touchA : Highlight :=
  ⟨0, 2, HighlightFamily.plagiarism, "identical", "", "", "", [], "s", "", 0, []⟩

def touchB : Highlight :=
  ⟨2, 1, HighlightFamily.plagiarism, "identical", "", "", "", [], "s", "", 0, []⟩

theorem touching_not_fused_witness :
    (∀ h ∈ [touchA, touchB], 0 < h.length) ∧
    ([touchA, touchB][0]? = some touchA) ∧
    ([touchA, touchB][1]? = some touchB) ∧
    (touchA.start + touchA.length = touchB.start) ∧
    ((∀ seg ∈ resolveOverlapsI [touchA, touchB],
      ¬((0, touchA) ∈ seg.entries ∧ (1, touchB) ∈ seg.entries)) ∧
    (∃ segA ∈ resolveOverlapsI [touchA, touchB], (0, touchA) ∈ segA.entries) ∧
    (∃ segB ∈ resolveOverlapsI [touchA, touchB], (1, touchB) ∈ segB.entries) ∧
    (∀ segA ∈ resolveOverlapsI [touchA, touchB],
      ∀ segB ∈ resolveOverlapsI [touchA, touchB],
      (0, touchA) ∈ segA.entries → (1, touchB) ∈ segB.entries →
        segA.stop ≤ segB.start)) :=
  ⟨by decide, by decide, by decide, by decide,
    touching_not_fused [touchA, touchB] (by decide) 0 1 touchA touchB
      (by decide) (by decide) (by decide)⟩

/-! ### C6 and C2 -/

theorem lineReportAux_highlights (segs : List Segment) :
    ∀ (lines : List (List Char)) (idx pos : Nat),
      ∀ entry ∈ lineReportAux segs lines idx pos, ∀ lh ∈ entry.highlights,
        ∃ seg ∈ segs, lh.highlights = seg.highlights := by
  intro lines
  induction lines with
  | nil =>
    intro idx pos entry hentry
    cases hentry
  | cons line rest ih =>
    intro idx pos entry hentry lh hlh
    simp only [lineReportAux] at hentry
    split at hentry
    · rcases List.mem_cons.1 hentry with hentry | hentry
      · subst hentry
        simp only [] at hlh
        rcases List.mem_map.1 hlh with ⟨seg, hseg, rfl⟩
        exact ⟨seg, List.mem_of_mem_filter hseg, rfl⟩
      · exact ih _ _ entry hentry lh hlh
    · exact ih _ _ entry hentry lh hlh

/-- Plagiarism matches used by the C6 counterexample: two overlapping matches
over the text `"abcd"`, covering `[0,3)` and `[1,4)`. -/
def overlapA : PlagiarismMatch := ⟨0, 3, "identical", "", "", 0⟩

def overlapB : PlagiarismMatch := ⟨1, 3, "identical", "", "", 0⟩

/-- C6 counterexample: the returned segments do **not** list their active
annotations in activation order.  With two overlapping matches starting at 0
and 1, the overlap segment `[1,3)` lists the annotation starting at 1 first —
the in-place `highlights.reverse()` performed by `wrapInHighlights` during HTML
generation leaves every returned segment's list in reverse activation order.
(If activation order held, each segment's list would be sorted by ascending
start position, since here all starts differ.) -/
theorem segment_order_counterexample :
    ¬ (∀ seg ∈ (combineHighlights (some "abcd".toList) none
        [overlapA, overlapB]).highlights,
      seg.highlights.Pairwise (fun a b => a.start ≤ b.start)) := by
  decide

/-- C6 as amended: each returned segment (for the `highlights` field) carries
exactly the reverse of its activation-ordered active list — the active entries
of the sweep are sorted by `activationLT` (start-event processing order, ties
by input order), and the returned list is their reversal (most recently
activated first); every line-report entry shares (a pointer to) one of those
same reversed lists. -/
theorem segment_highlights_reverse_activation (text : List Char)
    (g : Option (List GrammarError)) (m : List PlagiarismMatch) :
    ((combineHighlights (some text) g m).highlights =
      (resolveOverlapsI (allHighlights text g m)).map
        (fun s => ⟨s.start, s.stop, s.stop - s.start,
          (s.entries.map Prod.snd).reverse⟩)) ∧
    (∀ seg ∈ resolveOverlapsI (allHighlights text g m),
      seg.entries.Pairwise activationLT) ∧
    (∀ entry ∈ (combineHighlights (some text) g m).lineReport,
      ∀ lh ∈ entry.highlights,
        ∃ seg ∈ (combineHighlights (some text) g m).highlights,
          lh.highlights = seg.highlights) := by
  obtain ⟨s, hres, hinv⟩ :=
    resolveOverlapsI_inv (allHighlights text g m) (allHighlights_pos text g m)
  refine ⟨?_, ?_, ?_⟩
  · by_cases hne : text = []
    · subst hne
      rw [allHighlights_nil]
      rfl
    · exact combineHighlights_highlights text g m hne
  · intro seg hseg
    rw [← hres] at hseg
    exact hinv.res_sorted seg hseg
  · by_cases hne : text = []
    · subst hne
      intro entry hentry
      cases hentry
    · rw [combineHighlights_lineReport text g m hne]
      intro entry hentry
      exact lineReportAux_highlights _ _ _ _ entry hentry

/-- Grammar errors used by the C2 counterexample: same span `[0,3)`, different
categories. -/
def sameSpanSpelling : GrammarError := ⟨0, 3, "spelling", "", "", "", [], []⟩

def sameSpanPunctuation : GrammarError := ⟨0, 3, "punctuation", "", "", "", [], []⟩

/-- C2 counterexample: the statistics do **not** dedup by the claimed identity
(category, start, length).  Two grammar annotations with the same span but
different categories (`spelling` and `punctuation`) are referenced by the
output segments as two distinct annotations under the (category, start,
length) identity, yet the reported `grammarErrors` count is 1, because the
code's dedup key is `TYPE_start_length` with the *family* (`grammar`), not the
category. -/
theorem statistics_category_identity_counterexample :
    (combineHighlights (some "abcdef".toList)
      (some [sameSpanSpelling, sameSpanPunctuation]) []).statistics.grammarErrors = 1 ∧
    ((((combineHighlights (some "abcdef".toList)
      (some [sameSpanSpelling, sameSpanPunctuation]) []).highlights.flatMap
      Segment.highlights).filter
      (fun h => h.type = HighlightFamily.grammar)).map categoryId).toFinset.card = 2 := by
  constructor
  · decide
  · decide

/-- C2 as amended: the per-family statistics count the number of distinct
source annotations referenced across all output segments under the identity
the code actually uses — the triple (family, start, length), `highlightId` —
and that count also equals the number of distinct such triples among the
clamped input annotations, so an annotation split across several segments by
an overlapping neighbour still contributes exactly one. -/
theorem statistics_count_distinct_family_triples (text : List Char)
    (g : Option (List GrammarError)) (m : List PlagiarismMatch) :
    ((combineHighlights (some text) g m).statistics.grammarErrors =
      ((((combineHighlights (some text) g m).highlights.flatMap
        Segment.highlights).filter
        (fun h => h.type = HighlightFamily.grammar)).map highlightId).toFinset.card) ∧
    ((combineHighlights (some text) g m).statistics.plagiarismMatches =
      ((((combineHighlights (some text) g m).highlights.flatMap
        Segment.highlights).filter
        (fun h => h.type = HighlightFamily.plagiarism)).map highlightId).toFinset.card) ∧
    ((combineHighlights (some text) g m).statistics.grammarErrors =
      (((allHighlights text g m).filter
        (fun h => h.type = HighlightFamily.grammar)).map highlightId).toFinset.card) ∧
    ((combineHighlights (some text) g m).statistics.plagiarismMatches =
      (((allHighlights text g m).filter
        (fun h => h.type = HighlightFamily.plagiarism)).map highlightId).toFinset.card) := by
  have hmem : ∀ h : Highlight,
      (∃ seg ∈ (combineHighlights (some text) g m).highlights, h ∈ seg.highlights) ↔
        h ∈ allHighlights text g m := by
    intro h
    by_cases hne : text = []
    · subst hne
      rw [allHighlights_nil]
      constructor
      · rintro ⟨seg, hseg, -⟩
        cases hseg
      · rintro hh
        cases hh
    · obtain ⟨s, hres, hinv⟩ :=
        resolveOverlapsI_inv (allHighlights text g m) (allHighlights_pos text g m)
      rw [combineHighlights_highlights text g m hne]
      constructor
      · rintro ⟨seg, hseg, hh⟩
        rcases List.mem_map.1 hseg with ⟨segI, hsegI, rfl⟩
        simp only [List.mem_reverse, List.mem_map] at hh
        rcases hh with ⟨p, hp, rfl⟩
        rw [← hres] at hsegI
        exact List.getElem?_mem (hinv.res_sound segI hsegI p hp).1
      · intro hh
        obtain ⟨i, hi⟩ := List.getElem?_of_mem hh
        obtain ⟨segI, hsegI, hentry⟩ :=
          resolveOverlapsI_refers (allHighlights text g m)
            (allHighlights_pos text g m) hi
        refine ⟨_, List.mem_map_of_mem _ hsegI, ?_⟩
        simp only [List.mem_reverse, List.mem_map]
        exact ⟨(i, h), hentry, rfl⟩
  have hsets : ∀ fam : HighlightFamily,
      ((((combineHighlights (some text) g m).highlights.flatMap
        Segment.highlights).filter (fun h => h.type = fam)).map highlightId).toFinset =
      (((allHighlights text g m).filter
        (fun h => h.type = fam)).map highlightId).toFinset := by
    intro fam
    apply Finset.ext
    intro x
    simp only [List.mem_toFinset, List.mem_map, List.mem_filter, List.mem_flatMap,
      decide_eq_true_eq]
    constructor
    · rintro ⟨h, ⟨⟨seg, hseg, hh⟩, hfam⟩, rfl⟩
      exact ⟨h, ⟨(hmem h).1 ⟨seg, hseg, hh⟩, hfam⟩, rfl⟩
    · rintro ⟨h, ⟨hh, hfam⟩, rfl⟩
      obtain ⟨seg, hseg, hsegh⟩ := (hmem h).2 hh
      exact ⟨h, ⟨⟨seg, hseg, hsegh⟩, hfam⟩, rfl⟩
  by_cases hne : text = []
  · subst hne
    refine ⟨rfl, rfl, ?_, ?_⟩ <;>
      · rw [allHighlights_nil]
        rfl
  · rw [combineHighlights_statistics text g m hne]
    exact ⟨rfl, rfl, by rw [← hsets HighlightFamily.grammar],
      by rw [← hsets HighlightFamily.plagiarism]⟩

/-! ### Properties of escaping and tag stripping -/

theorem escapeChar_clean (c : Char) : '<' ∉ escapeChar c ∧ '>' ∉ escapeChar c := by
  unfold escapeChar
  split_ifs with h1 h2 h3 h4 h5
  · exact ⟨by decide, by decide⟩
  · exact ⟨by decide, by decide⟩
  · exact ⟨by decide, by decide⟩
  · exact ⟨by decide, by decide⟩
  · exact ⟨by decide, by decide⟩
  · exact ⟨fun hc => h2 (List.mem_singleton.1 hc).symm,
      fun hc => h3 (List.mem_singleton.1 hc).symm⟩

theorem escapeHtml_clean (t : List Char) :
    '<' ∉ escapeHtml t ∧ '>' ∉ escapeHtml t := by
  constructor <;>
  · intro hc
    rcases List.mem_flatMap.1 hc with ⟨c, -, hcc⟩
    first
    | exact (escapeChar_clean c).1 hcc
    | exact (escapeChar_clean c).2 hcc

theorem escapeHtml_append (a b : List Char) :
    escapeHtml (a ++ b) = escapeHtml a ++ escapeHtml b := by
  unfold escapeHtml
  exact List.flatMap_append ..

/-- Text without `<` passes through the stripper unchanged (in text state). -/
theorem stripTagsAux_clean_append (a b : List Char) (ha : '<' ∉ a) :
    stripTagsAux (a ++ b) false = a ++ stripTagsAux b false := by
  induction a with
  | nil => rfl
  | cons c rest ih =>
    have hc : ¬ (c = '<') := fun h => ha (h ▸ List.mem_cons_self c rest)
    have hrest : '<' ∉ rest := fun h => ha (List.mem_cons_of_mem c h)
    simp only [List.cons_append, stripTagsAux, if_neg hc, List.append_eq]
    rw [ih hrest]

/-- Inside a tag, everything up to the first `>` is consumed. -/
theorem stripTagsAux_consume (inner b : List Char) (h : '>' ∉ inner) :
    stripTagsAux (inner ++ '>' :: b) true = stripTagsAux b false := by
  induction inner with
  | nil => simp [stripTagsAux]
  | cons c rest ih =>
    have hc : ¬ (c = '>') := fun hcc => h (hcc ▸ List.mem_cons_self c rest)
    have hrest : '>' ∉ rest := fun hcc => h (List.mem_cons_of_mem c hcc)
    simp only [List.cons_append, stripTagsAux, if_neg hc, List.append_eq]
    exact ih hrest

/-- A whole `<`...`>` run is removed. -/
theorem stripTagsAux_tag (inner b : List Char) (h : '>' ∉ inner) :
    stripTagsAux ('<' :: inner ++ '>' :: b) false = stripTagsAux b false := by
  show stripTagsAux ('<' :: (inner ++ '>' :: b)) false = stripTagsAux b false
  simp only [stripTagsAux, if_pos rfl]
  exact stripTagsAux_consume inner b h

/-- Decimal digit strings contain only digit characters. -/
theorem toDigitsCore_mem (fuel : Nat) :
    ∀ (n : Nat) (acc : List Char),
      (∀ c ∈ acc, c ∈ "0123456789".toList) →
      ∀ c ∈ Nat.toDigitsCore 10 fuel n acc, c ∈ "0123456789".toList := by
  induction fuel with
  | zero =>
    intro n acc hacc c hc
    exact hacc c hc
  | succ fuel ih =>
    intro n acc hacc c hc
    have hd : (n % 10).digitChar ∈ "0123456789".toList := by
      have hlt : n % 10 < 10 := Nat.mod_lt _ (by omega)
      interval_cases h : n % 10 <;> decide
    simp only [Nat.toDigitsCore] at hc
    by_cases hz : n / 10 = 0
    · rw [if_pos hz] at hc
      rcases List.mem_cons.1 hc with rfl | hc
      · exact hd
      · exact hacc c hc
    · rw [if_neg hz] at hc
      refine ih (n / 10) ((n % 10).digitChar :: acc) ?_ c hc
      intro x hx
      rcases List.mem_cons.1 hx with rfl | hx
      · exact hd
      · exact hacc x hx

theorem natRepr_clean (n : Nat) : '>' ∉ (Nat.repr n).toList := by
  intro hc
  have h1 : (Nat.repr n).toList = Nat.toDigits 10 n := rfl
  rw [h1] at hc
  have := toDigitsCore_mem (n + 1) n [] (by intro c hc; cases hc) _ hc
  revert this
  decide

theorem intercalate_cons₂ (sep : List Char) (a b : List Char)
    (rest : List (List Char)) :
    List.intercalate sep (a :: b :: rest) =
      a ++ sep ++ List.intercalate sep (b :: rest) := by
  unfold List.intercalate
  rw [List.intersperse_cons₂]
  simp [List.flatten_cons, List.append_assoc]

theorem intercalate_clean {c : Char} {sep : List Char} :
    ∀ (xs : List (List Char)), c ∉ sep → (∀ a ∈ xs, c ∉ a) →
      c ∉ List.intercalate sep xs := by
  intro xs hsep
  induction xs with
  | nil =>
    intro _ hc
    simp [List.intercalate] at hc
  | cons a rest ih =>
    intro hxs hc
    cases rest with
    | nil =>
      have ha : List.intercalate sep [a] = a := by
        simp [List.intercalate]
      rw [ha] at hc
      exact hxs a (List.mem_cons_self _ _) hc
    | cons b rest2 =>
      rw [intercalate_cons₂] at hc
      rcases List.mem_append.1 hc with hc | hc
      · rcases List.mem_append.1 hc with hc | hc
        · exact hxs a (List.mem_cons_self _ _) hc
        · exact hsep hc
      · exact ih (fun x hx => hxs x (List.mem_cons_of_mem _ hx)) hc

/-! ### Tag cleanliness -/

theorem getCssClass_clean (h : Highlight) : '>' ∉ (getCssClass h).toList := by
  unfold getCssClass cssClassesLookup
  cases hft : h.type
  all_goals split_ifs
  all_goals
    first
    | exact (by decide : '>' ∉ ("grammar-error" : String).toList)
    | exact (by decide : '>' ∉ ("spelling-error" : String).toList)
    | exact (by decide : '>' ∉ ("punctuation-error" : String).toList)
    | exact (by decide : '>' ∉ ("style-issue" : String).toList)
    | exact (by decide : '>' ∉ ("plagiarism-match" : String).toList)
    | exact (by decide : '>' ∉ ("plagiarism-identical" : String).toList)
    | exact (by decide : '>' ∉ ("plagiarism-minor" : String).toList)
    | exact (by decide : '>' ∉ ("plagiarism-paraphrased" : String).toList)

theorem familyName_clean (f : HighlightFamily) : '>' ∉ familyName f := by
  cases f <;> decide

theorem getDataAttributes_clean (h : Highlight)
    (hsev : '>' ∉ h.severity.toList) : '>' ∉ getDataAttributes h := by
  unfold getDataAttributes
  refine intercalate_clean _ (by decide) ?_
  intro a ha
  rcases List.mem_append.1 ha with ha | ha
  · rw [List.mem_singleton.1 ha]
    intro hc
    rcases List.mem_append.1 hc with hc | hc
    · rcases List.mem_append.1 hc with hc | hc
      · revert hc; decide
      · exact familyName_clean h.type hc
    · revert hc; decide
  · cases htype : h.type with
    | grammar =>
      rw [htype] at ha
      simp only [] at ha
      rcases List.mem_append.1 ha with ha | ha
      · rcases List.mem_append.1 ha with ha | ha
        · rw [List.mem_singleton.1 ha]
          intro hc
          rcases List.mem_append.1 hc with hc | hc
          · rcases List.mem_append.1 hc with hc | hc
            · revert hc; decide
            · exact (escapeHtml_clean _).2 hc
          · revert hc; decide
        · split_ifs at ha
          · rw [List.mem_singleton.1 ha]
            intro hc
            rcases List.mem_append.1 hc with hc | hc
            · rcases List.mem_append.1 hc with hc | hc
              · revert hc; decide
              · exact (escapeHtml_clean _).2 hc
            · revert hc; decide
          · cases ha
      · rw [List.mem_singleton.1 ha]
        intro hc
        rcases List.mem_append.1 hc with hc | hc
        · rcases List.mem_append.1 hc with hc | hc
          · revert hc; decide
          · exact hsev hc
        · revert hc; decide
    | plagiarism =>
      rw [htype] at ha
      simp only [] at ha
      rcases List.mem_append.1 ha with ha | ha
      · rcases List.mem_append.1 ha with ha | ha
        · split_ifs at ha
          · rw [List.mem_singleton.1 ha]
            intro hc
            rcases List.mem_append.1 hc with hc | hc
            · rcases List.mem_append.1 hc with hc | hc
              · revert hc; decide
              · exact (escapeHtml_clean _).2 hc
            · revert hc; decide
          · cases ha
        · split_ifs at ha
          · rw [List.mem_singleton.1 ha]
            intro hc
            rcases List.mem_append.1 hc with hc | hc
            · rcases List.mem_append.1 hc with hc | hc
              · revert hc; decide
              · exact (escapeHtml_clean _).2 hc
            · revert hc; decide
          · cases ha
      · split_ifs at ha
        · rw [List.mem_singleton.1 ha]
          intro hc
          rcases List.mem_append.1 hc with hc | hc
          · rcases List.mem_append.1 hc with hc | hc
            · revert hc; decide
            · exact natRepr_clean _ hc
          · revert hc; decide
        · cases ha

/-- The opening wrapper decomposed as a single tag with `>`-free innards. -/
theorem spanOpen_decomp (h : Highlight) (hsev : '>' ∉ h.severity.toList) :
    ∃ inner : List Char, spanOpen h = '<' :: inner ++ '>' :: [] ++ [] ∧ '>' ∉ inner := by
  refine ⟨"span class=\"".toList ++ (getCssClass h).toList ++ "\" ".toList ++
    getDataAttributes h, ?_, ?_⟩
  · unfold spanOpen
    have hhead : "<span class=\"".toList = '<' :: "span class=\"".toList := by decide
    rw [hhead]
    simp [List.append_assoc]
  · intro hc
    rcases List.mem_append.1 hc with hc | hc
    · rcases List.mem_append.1 hc with hc | hc
      · rcases List.mem_append.1 hc with hc | hc
        · revert hc; decide
        · exact getCssClass_clean h hc
      · revert hc; decide
    · exact getDataAttributes_clean h hsev hc

/-! ### Stripping the rendered markup -/

/-- The nesting produced by `wrapInHighlights`, recursively: the first
highlight of the list is the outermost wrapper. -/
def wrapAll : List Highlight → List Char → List Char
  | [], w => w
  | h :: t, w => spanOpen h ++ wrapAll t w ++ spanClose

theorem wrapInHighlights_eq_wrapAll (text : List Char) (hs : List Highlight) :
    wrapInHighlights text hs = wrapAll hs (escapeHtml text) := by
  suffices hgen : ∀ (hs : List Highlight) (w : List Char),
      hs.reverse.foldl (fun wrapped h => spanOpen h ++ wrapped ++ spanClose) w =
        wrapAll hs w from hgen hs (escapeHtml text)
  intro hs
  induction hs with
  | nil => intro w; rfl
  | cons h t ih =>
    intro w
    rw [List.reverse_cons, List.foldl_append]
    rw [ih w]
    rfl

theorem stripTagsAux_wrapAll (hs : List Highlight) (w rest : List Char)
    (hw : '<' ∉ w)
    (hsev : ∀ h ∈ hs, '>' ∉ h.severity.toList) :
    stripTagsAux (wrapAll hs w ++ rest) false = w ++ stripTagsAux rest false := by
  induction hs generalizing rest with
  | nil =>
    exact stripTagsAux_clean_append w rest hw
  | cons h t ih =>
    obtain ⟨inner, hopen, hinner⟩ :=
      spanOpen_decomp h (hsev h (List.mem_cons_self _ _))
    simp only [List.append_nil] at hopen
    show stripTagsAux ((spanOpen h ++ wrapAll t w ++ spanClose) ++ rest) false = _
    rw [hopen]
    have hassoc : (('<' :: inner ++ ['>']) ++ wrapAll t w ++ spanClose) ++ rest =
        '<' :: inner ++ '>' :: (wrapAll t w ++ (spanClose ++ rest)) := by
      simp [List.append_assoc]
    rw [hassoc, stripTagsAux_tag _ _ hinner]
    rw [ih (spanClose ++ rest) (fun x hx => hsev x (List.mem_cons_of_mem _ hx))]
    have hclose : spanClose ++ rest = '<' :: "/span".toList ++ '>' :: rest := rfl
    rw [hclose, stripTagsAux_tag _ _ (by decide)]

theorem jsSubstring_of_le (t : List Char) (a b : Nat) (hab : a ≤ b)
    (hb : b ≤ t.length) : jsSubstring t a b = (t.drop a).take (b - a) := by
  unfold jsSubstring
  have h1 : min a t.length = a := min_eq_left (hab.trans hb)
  have h2 : min b t.length = b := min_eq_left hb
  simp only [h1, h2, min_eq_left hab, max_eq_right hab]

theorem drop_decomp (t : List Char) (a b : Nat) (hab : a ≤ b) :
    t.drop a = (t.drop a).take (b - a) ++ t.drop b := by
  have h2 : (t.drop a).drop (b - a) = t.drop b := by
    rw [List.drop_drop]
    have hsum : a + (b - a) = b := by omega
    rw [hsum]
  rw [← h2, List.take_append_drop]

/-- Severities of clamped highlights are `>`-free when the raw grammar
errors' severities are. -/
theorem allHighlights_severity_clean (text : List Char)
    (g : Option (List GrammarError)) (m : List PlagiarismMatch)
    (hsev : ∀ e ∈ g.getD [], '>' ∉ e.severity.toList) :
    ∀ h ∈ allHighlights text g m, '>' ∉ h.severity.toList := by
  intro h hmem
  unfold allHighlights at hmem
  rw [List.mem_insertionSort] at hmem
  rcases List.mem_append.1 hmem with hmem | hmem
  · rcases List.mem_filterMap.1 hmem with ⟨e, hein, he⟩
    unfold clampGrammar at he
    by_cases h0 : e.length = 0
    · rw [if_pos h0] at he; cases he
    · rw [if_neg h0] at he
      by_cases h1 : (0 : Int) < min e.length ((text.length : Int) - (e.start.toNat : Int))
      · rw [if_pos h1] at he
        rcases Option.some.injEq _ _ ▸ he with rfl
        show '>' ∉ (if e.severity = "" then "warning" else e.severity).toList
        split_ifs
        · decide
        · exact hsev e hein
      · rw [if_neg h1] at he; cases he
  · rcases List.mem_filterMap.1 hmem with ⟨e, -, he⟩
    unfold clampPlagiarism at he
    by_cases h0 : e.length = 0
    · rw [if_pos h0] at he; cases he
    · rw [if_neg h0] at he
      by_cases h1 : (0 : Int) < min e.length ((text.length : Int) - (e.start.toNat : Int))
      · rw [if_pos h1] at he
        rcases Option.some.injEq _ _ ▸ he with rfl
        show '>' ∉ ("" : String).toList
        decide
      · rw [if_neg h1] at he; cases he

/-- Stripping the tags from the HTML of a sorted, disjoint, in-bounds segment
list yields exactly the escaped text tail. -/
theorem stripTags_generateHTMLAux (text : List Char) :
    ∀ (segs : List Segment) (lastIndex : Nat),
      lastIndex ≤ text.length →
      (∀ seg ∈ segs, lastIndex ≤ seg.start) →
      (∀ seg ∈ segs, seg.start ≤ seg.stop ∧ seg.stop ≤ text.length) →
      segs.Pairwise (fun a b => a.stop ≤ b.start) →
      (∀ seg ∈ segs, ∀ h ∈ seg.highlights, '>' ∉ h.severity.toList) →
      stripTagsAux (generateHTMLAux text segs lastIndex) false =
        escapeHtml (text.drop lastIndex) := by
  intro segs
  induction segs with
  | nil =>
    intro lastIndex hli _ _ _ _
    show stripTagsAux (if lastIndex < text.length then
      escapeHtml (text.drop lastIndex) else []) false = _
    split_ifs with hlt
    · have hpass := stripTagsAux_clean_append (escapeHtml (text.drop lastIndex)) []
        (escapeHtml_clean _).1
      have h0 : stripTagsAux ([] : List Char) false = [] := rfl
      rw [h0, List.append_nil] at hpass
      exact hpass
    · have hdrop : text.drop lastIndex = [] := by
        apply List.drop_eq_nil_of_le
        omega
      rw [hdrop]
      rfl
  | cons seg rest ih =>
    intro lastIndex hli hlb hbounds hchain hsevs
    have hsegb := hbounds seg (List.mem_cons_self _ _)
    have hsegl := hlb seg (List.mem_cons_self _ _)
    have hchain' := List.pairwise_cons.1 hchain
    have hsub2 : jsSubstring text seg.start seg.stop =
        (text.drop seg.start).take (seg.stop - seg.start) :=
      jsSubstring_of_le text seg.start seg.stop hsegb.1 hsegb.2
    rw [show generateHTMLAux text (seg :: rest) lastIndex =
        ((if lastIndex < seg.start then
          escapeHtml (jsSubstring text lastIndex seg.start) else []) ++
        wrapInHighlights (jsSubstring text seg.start seg.stop) seg.highlights) ++
          generateHTMLAux text rest seg.stop from rfl,
      List.append_assoc]
    have hgapclean : '<' ∉ (if lastIndex < seg.start then
        escapeHtml (jsSubstring text lastIndex seg.start) else []) := by
      split_ifs
      · exact (escapeHtml_clean _).1
      · simp
    rw [stripTagsAux_clean_append _ _ hgapclean]
    rw [wrapInHighlights_eq_wrapAll]
    rw [stripTagsAux_wrapAll seg.highlights _ _ (escapeHtml_clean _).1
      (hsevs seg (List.mem_cons_self _ _))]
    rw [ih seg.stop hsegb.2 (fun r hr => hchain'.1 r hr)
      (fun r hr => hbounds r (List.mem_cons_of_mem _ hr)) hchain'.2
      (fun r hr => hsevs r (List.mem_cons_of_mem _ hr))]
    by_cases hgap : lastIndex < seg.start
    · rw [if_pos hgap]
      rw [jsSubstring_of_le text lastIndex seg.start hsegl
        (le_trans hsegb.1 hsegb.2), hsub2]
      rw [← escapeHtml_append, ← escapeHtml_append]
      congr 1
      rw [← drop_decomp text seg.start seg.stop hsegb.1]
      rw [← drop_decomp text lastIndex seg.start hsegl]
    · rw [if_neg hgap]
      have hEq : lastIndex = seg.start := by omega
      subst hEq
      rw [hsub2]
      simp only [List.nil_append]
      rw [← escapeHtml_append]
      congr 1
      rw [← drop_decomp text seg.start seg.stop hsegb.1]

/-- C10 as amended: provided no grammar error's severity string contains the
character `>` (the one metadata field the renderer interpolates into its
wrapper tags without HTML-escaping), removing all `<`...`>` runs from the
generated `highlightedHTML` yields exactly the HTML-escaped original text —
the rendered output preserves every character of the input, in order,
including the unannotated gaps before, between and after segments. -/
theorem strip_tags_yields_escaped_text (text : List Char)
    (g : Option (List GrammarError)) (m : List PlagiarismMatch)
    (hsev : ∀ e ∈ g.getD [], '>' ∉ e.severity.toList) :
    stripTags ((combineHighlights (some text) g m).highlightedHTML) =
      escapeHtml text := by
  by_cases hne : text = []
  · subst hne
    rfl
  · rw [combineHighlights_html text g m hne]
    obtain ⟨s, hres, hinv⟩ :=
      resolveOverlapsI_inv (allHighlights text g m) (allHighlights_pos text g m)
    have hbounds : ∀ seg ∈ resolveOverlaps (allHighlights text g m),
        seg.start ≤ seg.stop ∧ seg.stop ≤ text.length := by
      intro seg hseg
      rcases List.mem_map.1 hseg with ⟨segI, hsegI, rfl⟩
      rw [← hres] at hsegI
      have hb := hinv.res_bounds segI hsegI
      obtain ⟨p, hp⟩ := List.exists_mem_of_ne_nil _ (hinv.res_nonempty segI hsegI)
      have hsound := hinv.res_sound segI hsegI p hp
      have hmem := allHighlights_bounds text g m p.2 (List.getElem?_mem hsound.1)
      refine ⟨?_, ?_⟩
      · show segI.start ≤ segI.stop
        omega
      · show segI.stop ≤ text.length
        omega
    have hchain : (resolveOverlaps (allHighlights text g m)).Pairwise
        (fun a b => a.stop ≤ b.start) := by
      rw [resolveOverlaps, List.pairwise_map]
      rw [← hres]
      exact hinv.res_chain
    have hsevs : ∀ seg ∈ resolveOverlaps (allHighlights text g m),
        ∀ h ∈ seg.highlights, '>' ∉ h.severity.toList := by
      intro seg hseg h hh
      rcases List.mem_map.1 hseg with ⟨segI, hsegI, rfl⟩
      rw [← hres] at hsegI
      rcases List.mem_map.1 hh with ⟨p, hp, rfl⟩
      exact allHighlights_severity_clean text g m hsev p.2
        (List.getElem?_mem (hinv.res_sound segI hsegI p hp).1)
    unfold generateHTML
    split_ifs with hnil
    · unfold stripTags
      have hpass := stripTagsAux_clean_append (escapeHtml text) []
        (escapeHtml_clean _).1
      have h0 : stripTagsAux ([] : List Char) false = [] := rfl
      rw [h0, List.append_nil] at hpass
      exact hpass
    · unfold stripTags
      have := stripTags_generateHTMLAux text (resolveOverlaps (allHighlights text g m))
        0 (Nat.zero_le _) (fun seg _ => Nat.zero_le _) hbounds hchain hsevs
      rw [this, List.drop_zero]

/-- A grammar error whose raw severity contains `>`, used by the C10
counterexample. -/
def injectionError : GrammarError := ⟨0, 1, "spelling", ">", "m", "", [], []⟩

/-- C10 counterexample: with a grammar error whose `severity` is the string
`">"`, the renderer writes `data-severity=">"` unescaped into the wrapper tag,
so the tag's first `>` terminates it early and stripping all `<`...`>` runs
does **not** return the escaped original text (residue `">` remains).  The
claim as stated over *every* annotation collection therefore fails. -/
theorem strip_severity_injection_counterexample :
    stripTags ((combineHighlights (some "ab".toList)
      (some [injectionError]) []).highlightedHTML) ≠ escapeHtml "ab".toList := by
  decide

/-- A well-behaved annotation collection for the C10 witness. -/
def witnessError : GrammarError := ⟨0, 1, "spelling", "", "m", "", [], []⟩

def witnessMatch : PlagiarismMatch := ⟨1, 2, "identical", "src", "u", 40⟩

theorem strip_tags_yields_escaped_text_witness :
    (∀ e ∈ (some [witnessError] : Option (List GrammarError)).getD [],
      '>' ∉ e.severity.toList) ∧
    stripTags ((combineHighlights (some "a&b".toList) (some [witnessError])
      [witnessMatch]).highlightedHTML) = escapeHtml "a&b".toList :=
  ⟨by decide, strip_tags_yields_escaped_text "a&b".toList (some [witnessError])
    [witnessMatch] (by decide)⟩
